import Mathlib

/-!
Verification development for the las-poly tool: a shallow embedding of its
CRS-resolution subsystem (`crs_utils.rs`) and outline-merge engine
(`las_feature_collection.rs`), with theorems about their behaviour.

Modelling conventions:
* `f64` coordinates are embedded as `ℚ`.  All coordinate operations in the
  embedded code are order comparisons and exact equality tests against
  constants that are exactly representable, so the embedding is faithful on
  every representable input.
* Rust `String` values are embedded as `List Char`; byte buffers as
  `List Nat` (each entry a byte value).  `String::from_utf8_lossy` is
  modelled for single-byte (ASCII and NUL) payloads, the only ones the
  theorems use.
* A Rust panic (out-of-bounds index, `unwrap` of `None`) is modelled by an
  `Option` result being `none`; a normal return is `some`.
-/

namespace LasPoly

abbrev Q2 : Type := ℚ × ℚ

/-- Whitespace test modelling Rust `char::is_whitespace` on the ASCII range:
space, tab, line feed, vertical tab, form feed and carriage return are
exactly the ASCII code points with the Unicode `White_Space` property. -/
def wsChar (c : Char) : Bool :=
  c == ' ' || c == '\t' || c == '\n' || c == Char.ofNat 11 || c == Char.ofNat 12
    || c == '\r'

/-- Model of Rust `str::trim`: drop whitespace from both ends. -/
def trimChars (cs : List Char) : List Char :=
  ((cs.dropWhile wsChar).reverse.dropWhile wsChar).reverse

/-- Model of `String::from_utf8_lossy` on ASCII byte lists (every byte below
`0x80`), where the lossy decoding is the identity on code points.  Theorems
whose conclusion depends on the decoded text of a payload restrict that
payload to this range; payloads whose text is discarded or overwritten are
unrestricted, since only the (byte-determined) control flow matters there. -/
def utf8Chars (bytes : List Nat) : List Char :=
  bytes.map Char.ofNat

/-- Decimal digit characters of a number, most significant first, with an
explicit fuel argument (any fuel at least the digit count gives the full
rendering; callers pass the number itself, which always suffices). -/
def decCharsAux : Nat → Nat → List Char
  | _, 0 => []
  | 0, _ => []
  | Nat.succ fuel, n => decCharsAux fuel (n / 10) ++ [Char.ofNat (48 + n % 10)]

/-- Decimal rendering of a natural number as a character list, modelling the
rendering done by Rust `format!` for unsigned integers. -/
def decRepr (n : Nat) : List Char :=
  if n = 0 then ['0'] else decCharsAux n n

/-- Test whether `pat` occurs at the front of `hay`. -/
def leadsWith : List Char → List Char → Bool
  | [], _ => true
  | _ :: _, [] => false
  | p :: ps, h :: hs => p == h && leadsWith ps hs

/-- First index at which `pat` occurs inside `hay`, modelling `str::find`. -/
def findSub (hay pat : List Char) : Option Nat :=
  if leadsWith pat hay then some 0
  else
    match hay with
    | [] => none
    | _ :: t => (findSub t pat).map (· + 1)

/-! ### CRS guessing (`crs_utils.rs::guess_crs_from_points`) -/

/-- Bounding-box test for the EPSG:4326 heuristic in `guess_crs_from_points`. -/
def fitsEpsg4326 (p : Q2) : Bool :=
  decide (-180 < p.1) && decide (p.1 < 180) && decide (-90 < p.2) && decide (p.2 < 90)

/-- Bounding-box test for the EPSG:2193 heuristic in `guess_crs_from_points`. -/
def fitsEpsg2193 (p : Q2) : Bool :=
  decide (800000 < p.1) && decide (p.1 < 2400000) &&
    decide (4000000 < p.2) && decide (p.2 < 9000000)

/-- Loop body of `guess_crs_from_points`: walk the sample maintaining the two
candidate flags, failing as soon as both are false, and resolving the winner
after the walk. -/
def guessLoop : List Q2 → Bool → Bool → Option (List Char)
  | [], isGeo, isProj =>
      if isGeo then some "EPSG:4326".data
      else if isProj then some "EPSG:2193".data
      else none
  | p :: rest, isGeo, isProj =>
      let isGeo' := isGeo && fitsEpsg4326 p
      let isProj' := isProj && fitsEpsg2193 p
      if !isGeo' && !isProj' then none
      else guessLoop rest isGeo' isProj'

/-- Embedding of `guess_crs_from_points`: `none` models
`Err(CrsError::UnableToGuessCrs)`. -/
def guessCrsFromPoints (points : List Q2) : Option (List Char) :=
  if points.isEmpty then none
  else guessLoop points true true

/-! ### Point sampling (`crs_utils.rs::guess_las_crs`) -/

/-- Embedding of `grab_first_n_points`: read the first
`min numPoints totalPoints` points of the file. -/
def grabFirstNPoints (filePoints : List Q2) (numPoints : Nat) : List Q2 :=
  filePoints.take (min numPoints filePoints.length)

/-- Embedding of `grab_random_points`.  The random index stream of the
thread-local RNG is passed in explicitly as `draws`; `gen_range(0..total)`
always yields an in-range index, in which case `read_point` succeeds. -/
def grabRandomPoints (filePoints : List Q2) (numPoints : Nat) (draws : List Nat) : List Q2 :=
  if numPoints ≥ filePoints.length then filePoints
  else (draws.take numPoints).filterMap (fun i => filePoints[i]?)

/-- Embedding of `guess_las_crs`.  For a `.laz` file the source calls
`grab_first_n_points(reader, 10)` with the literal `10`, ignoring the
requested `num_points`. -/
def guessLasCrs (isLaz : Bool) (numPoints : Nat) (draws : List Nat)
    (filePoints : List Q2) : Option (List Char) :=
  guessCrsFromPoints
    (if isLaz then grabFirstNPoints filePoints 10
     else grabRandomPoints filePoints numPoints draws)

/-! ### GeoTIFF key-directory decoding (`crs_utils.rs::extract_crs_from_geotiff`)

The function returns `Result<String, CrsError>` in Rust, but the observed
body produces only `Ok` values; every failure mode is an out-of-bounds index,
i.e. a panic.  The embedding therefore returns `Option (List Char)`, with
`none` modelling a panic and `some s` modelling `Ok(s)`. -/

/-- One decoded key group `(keyId, tagLocation, count, valueOffset)`. -/
structure GeoKey where
  keyId : Nat
  tagLoc : Nat
  count : Nat
  valueOffset : Nat
deriving DecidableEq, Repr

/-- Little-endian 16-bit decoding of a byte list, modelling
`chunks_exact(2)` followed by `u16::from_le_bytes` (a trailing odd byte is
dropped). -/
def toU16s : List Nat → List Nat
  | b0 :: b1 :: rest => (b0 + 256 * b1) :: toU16s rest
  | _ => []

/-- Read `k` four-value key groups from the front of `vals`; `none` models the
panic raised when the loop would index past the end of the directory. -/
def chunk4 : List Nat → Nat → Option (List GeoKey)
  | _, 0 => some []
  | a :: b :: c :: d :: rest, Nat.succ k =>
      (chunk4 rest k).map (fun gs => ⟨a, b, c, d⟩ :: gs)
  | _, Nat.succ _ => none

/-- Rendering of `format!("EPSG:{} ", value_offset)` (note the trailing
space). -/
def epsgChars (vo : Nat) : List Char :=
  "EPSG:".data ++ decRepr vo ++ [' ']

/-- Loop body of `extract_crs_from_geotiff` for one key group, threading the
accumulated output string.  For `keyId` 1026 / tag location 34737 the ascii
slice bound is `valueOffset + count - 1`, computed by the source in `u16`
arithmetic: under the checked arithmetic the crate's tests run with,
`valueOffset + count = 0` panics by underflow and `valueOffset + count >
65535` panics by overflow, both modelled as `none` (with wrapped arithmetic
the subsequent slice panics on these inputs as well, except for an ascii
buffer of 65535 or more bytes read at `valueOffset = count = 0`); in the
remaining range ℕ subtraction agrees with `u16` subtraction, and the slice
itself panics when its start exceeds its end or its end the buffer length. -/
def stepKey (dp ap : Option (List Nat)) (acc : List Char) (g : GeoKey) :
    Option (List Char) :=
  if g.keyId = 2048 then
    if g.valueOffset ≠ 32767 ∧ g.valueOffset ≠ 65535 then some (epsgChars g.valueOffset)
    else some acc
  else if g.keyId = 3072 then
    if g.valueOffset ≠ 32767 ∧ g.valueOffset ≠ 65535 then some (epsgChars g.valueOffset)
    else some acc
  else if g.keyId = 1026 then
    if g.tagLoc = 34736 then
      match dp with
      | some params =>
          match params[g.valueOffset]? with
          | some b => some (decRepr b)
          | none => none
      | none => some acc
    else if g.tagLoc = 34737 then
      match ap with
      | some params =>
          if g.valueOffset + g.count = 0 ∨ 65535 < g.valueOffset + g.count then none
          else if g.valueOffset ≤ g.valueOffset + g.count - 1 ∧
              g.valueOffset + g.count - 1 ≤ params.length then
            some (utf8Chars ((params.take (g.valueOffset + g.count - 1)).drop g.valueOffset))
          else none
      | none => some acc
    else some acc
  else some acc

/-- Condition under which one key group overwrites the accumulated output
string in `extract_crs_from_geotiff`: a non-sentinel EPSG key, or a citation
key whose referenced parameter buffer is present. -/
def effectiveWrite (dp ap : Option (List Nat)) (g : GeoKey) : Prop :=
  ((g.keyId = 2048 ∨ g.keyId = 3072) ∧ g.valueOffset ≠ 32767 ∧ g.valueOffset ≠ 65535)
    ∨ (g.keyId = 1026 ∧
        ((g.tagLoc = 34736 ∧ dp.isSome) ∨ (g.tagLoc = 34737 ∧ ap.isSome)))

instance (dp ap : Option (List Nat)) (g : GeoKey) : Decidable (effectiveWrite dp ap g) := by
  unfold effectiveWrite; infer_instance

/-- Post-processing at the end of `extract_crs_from_geotiff`: if the
accumulated string contains `" (EPSG:"`, keep only the text before it, then
trim whitespace. -/
def postKeys (s : List Char) : List Char :=
  let s' :=
    if (findSub s " (EPSG:".data).isSome then
      match findSub s " (EPSG:".data with
      | some i => s.take i
      | none => s
    else s
  trimChars s'

/-- Embedding of `extract_crs_from_geotiff`.  The header is the first four
16-bit values; the fourth is the key count.  `none` models a panic (the
directory too short for its declared key count, or an out-of-bounds parameter
access). -/
def extractCrsFromGeotiff (geoKeyDirectory : List Nat)
    (geoDoubleParams geoAsciiParams : Option (List Nat)) : Option (List Char) :=
  match toU16s geoKeyDirectory with
  | _ :: _ :: _ :: numKeys :: rest =>
      match chunk4 rest numKeys with
      | some gs => (gs.foldlM (stepKey geoDoubleParams geoAsciiParams) []).map postKeys
      | none => none
  | _ => none

/-! ### CRS record scanning (`crs_utils.rs::extract_crs`) -/

/-- Variable-length record: a namespace string, a record id and a byte
payload. -/
structure Vlr where
  userId : List Char
  recordId : Nat
  data : List Nat
deriving DecidableEq

/-- Tile header metadata consumed by `extract_crs`. -/
structure LasHeader where
  hasWktCrs : Bool
  vlrs : List Vlr
  evlrs : List Vlr
deriving DecidableEq

/-- Resolved CRS descriptor (`crs_utils.rs::Crs`). -/
inductive Crs where
  | wkt (text : List Char)
  | geoTiff (keyDirectory : List Nat) (doubleParams asciiParams : Option (List Nat))
deriving DecidableEq

/-- WKT-record matcher used in the `find_map` of `extract_crs`: namespace
`"LASF_Projection"` or `"liblas"`, record id 2111 or 2112, and a payload
that is non-empty after whitespace trimming. -/
def wktOfVlr (v : Vlr) : Option Crs :=
  if v.userId = "LASF_Projection".data ∨ v.userId = "liblas".data then
    if v.recordId = 2111 ∨ v.recordId = 2112 then
      let s := trimChars (utf8Chars v.data)
      if s = [] then none else some (Crs.wkt s)
    else none
  else none

/-- GeoTIFF-tag accumulation loop of `extract_crs` over the primary records:
each matching record id overwrites the previously remembered payload. -/
def geoTiffScan (vlrs : List Vlr) :
    Option (List Nat) × Option (List Nat) × Option (List Nat) :=
  vlrs.foldl
    (fun (acc : Option (List Nat) × Option (List Nat) × Option (List Nat)) v =>
      if v.userId = "LASF_Projection".data then
        if v.recordId = 34735 then (some v.data, acc.2.1, acc.2.2)
        else if v.recordId = 34736 then (acc.1, some v.data, acc.2.2)
        else if v.recordId = 34737 then (acc.1, acc.2.1, some v.data)
        else acc
      else acc)
    (none, none, none)

/-- Claim-side text for the WKT record, following the specification's words:
the payload with trailing NUL bytes and surrounding whitespace removed.  It
is compared against what `extract_crs` actually produces. -/
def specWktText (data : List Nat) : List Char :=
  trimChars (((utf8Chars data).reverse.dropWhile fun c => c == Char.ofNat 0).reverse)

/-- Embedding of `extract_crs` (file-read errors aside): `none` models
`Ok(None)`. -/
def extractCrs (h : LasHeader) : Option Crs :=
  if h.hasWktCrs then
    (h.vlrs ++ h.evlrs).findSome? wktOfVlr
  else
    match geoTiffScan h.vlrs with
    | (some keyDir, dp, ap) => some (Crs.geoTiff keyDir dp ap)
    | (none, _, _) => none

/-! ### Convex-hull primitive

The hull itself is computed by an external geometry library (the `geo`
crate); the system consumes it through the contract "given a point list,
return the minimal convex polygon containing the points as a closed ring".
We model that contract canonically: the ring lists the extreme points of the
input's convex hull in a fixed (lexicographic) order and is closed by
repeating the first vertex.  Extreme-point membership is decided by an
explicit Carathéodory-style test over ℚ. -/

/-- Two-dimensional cross product. -/
def cross (u v : Q2) : ℚ :=
  u.1 * v.2 - u.2 * v.1

/-- Decide membership of `p` in the closed segment from `a` to `b`. -/
def segB (p a b : Q2) : Bool :=
  if a = b then decide (p = a)
  else if a.1 ≠ b.1 then
    let t := (p.1 - a.1) / (b.1 - a.1)
    decide (0 ≤ t) && decide (t ≤ 1) && decide (p = a + t • (b - a))
  else
    let t := (p.2 - a.2) / (b.2 - a.2)
    decide (0 ≤ t) && decide (t ≤ 1) && decide (p = a + t • (b - a))

/-- Decide membership of `p` in the convex hull of the triangle `{a, b, c}`,
by barycentric coordinates in the nondegenerate case and by segment tests in
the collinear case. -/
def triMemB (p a b c : Q2) : Bool :=
  let u := b - a
  let w := c - a
  let d := cross u w
  if d = 0 then segB p a b || segB p b c || segB p a c
  else
    let w2 := cross (p - a) w / d
    let w3 := cross u (p - a) / d
    decide (0 ≤ w2) && decide (0 ≤ w3) && decide (w2 + w3 ≤ 1) &&
      decide (p = a + w2 • u + w3 • w)

/-- Decide membership of `p` in the convex hull of a finite point list, via
Carathéodory (some triangle over the list contains `p`). -/
def inHullB (p : Q2) (l : List Q2) : Bool :=
  l.any fun a => l.any fun b => l.any fun c => triMemB p a b c

/-- Lexicographic order on points, used to canonicalise vertex lists. -/
def qle (p q : Q2) : Prop :=
  p.1 < q.1 ∨ (p.1 = q.1 ∧ p.2 ≤ q.2)

instance : DecidableRel qle := fun p q =>
  inferInstanceAs (Decidable (p.1 < q.1 ∨ (p.1 = q.1 ∧ p.2 ≤ q.2)))

instance : IsTrans Q2 qle where
  trans p q r h₁ h₂ := by
    rcases h₁ with h₁ | ⟨e₁, h₁⟩ <;> rcases h₂ with h₂ | ⟨e₂, h₂⟩
    · exact Or.inl (lt_trans h₁ h₂)
    · exact Or.inl (e₂ ▸ h₁)
    · exact Or.inl (e₁ ▸ h₂)
    · exact Or.inr ⟨e₁.trans e₂, le_trans h₁ h₂⟩

instance : IsAntisymm Q2 qle where
  antisymm p q h₁ h₂ := by
    rcases h₁ with h₁ | ⟨e₁, h₁⟩ <;> rcases h₂ with h₂ | ⟨e₂, h₂⟩
    · exact absurd h₂ (not_lt_of_lt h₁)
    · exact absurd h₁ (e₂ ▸ lt_irrefl _)
    · exact absurd h₂ (e₁ ▸ lt_irrefl _)
    · exact Prod.ext e₁ (le_antisymm h₁ h₂)

instance : IsTotal Q2 qle where
  total p q := by
    rcases lt_trichotomy p.1 q.1 with h | h | h
    · exact Or.inl (Or.inl h)
    · rcases le_total p.2 q.2 with h₂ | h₂
      · exact Or.inl (Or.inr ⟨h, h₂⟩)
      · exact Or.inr (Or.inr ⟨h.symm, h₂⟩)
    · exact Or.inr (Or.inl h)

/-- Canonical ordering of a point list (insertion sort by the lexicographic
order). -/
def sortPoints (l : List Q2) : List Q2 :=
  l.insertionSort qle

/-- Extreme points of a point list: the distinct points not contained in the
convex hull of the other points. -/
def extremeList (l : List Q2) : List Q2 :=
  l.dedup.filter fun v => ¬ inHullB v (l.dedup.erase v)

/-- Model of the external convex-hull primitive: the closed exterior ring of
the convex hull of the input points (extreme points in canonical order,
first vertex repeated at the end; empty input yields an empty ring). -/
def hullRing (l : List Q2) : List Q2 :=
  match sortPoints (extremeList l) with
  | [] => []
  | x :: xs => x :: xs ++ [x]

/-! ### Outline merge engine (`las_feature_collection.rs`) -/

/-- Embedded `serde_json` property values: strings, `u64`-valued numbers,
string arrays (produced by `create_feature`), and everything else. -/
inductive JVal where
  | jstr (s : String)
  | ju64 (n : Nat)
  | jarr (vs : List String)
  | jother
deriving DecidableEq, Repr

/-- Rust `Value::as_str`. -/
def JVal.asStr : JVal → Option String
  | .jstr s => some s
  | _ => none

/-- Rust `Value::as_u64`. -/
def JVal.asU64 : JVal → Option Nat
  | .ju64 n => some n
  | _ => none

/-- Embedded GeoJSON geometry values: a polygon is a list of rings. -/
inductive GeomValue where
  | polygon (rings : List (List Q2))
  | other
deriving DecidableEq, Repr

/-- Embedded GeoJSON feature: optional geometry and an optional property
map (modelled as a key-ordered association list; lookups are by key). -/
structure Feature where
  geometry : Option GeomValue
  props : Option (List (String × JVal))
deriving DecidableEq, Repr

/-- Key lookup in a property map. -/
def getProp (m : List (String × JVal)) (k : String) : Option JVal :=
  (m.find? (fun e => e.1 = k)).map (·.2)

/-- Per-folder accumulator of `group_features_by_folder`: collected
geometries, a running point-count sum, and per-key distinct string values. -/
structure FolderAcc where
  geoms : List GeomValue
  totalPoints : Nat
  otherProps : List (String × List String)
deriving DecidableEq, Repr

/-- Append each value of `vs` to `vals` unless already present (the
`!entry.contains(&value)` check of the source). -/
def dedupAppend (vals vs : List String) : List String :=
  vs.foldl (fun acc v => if acc.contains v then acc else acc ++ [v]) vals

/-- Append the values in `vs` to the per-key list for `k`, skipping values
already present. -/
def addPropVals (props : List (String × List String)) (k : String) (vs : List String) :
    List (String × List String) :=
  match props with
  | [] => [(k, dedupAppend [] vs)]
  | (k', vals) :: rest =>
      if k' = k then (k', dedupAppend vals vs) :: rest
      else (k', vals) :: addPropVals rest k vs

/-- Merge one feature's string properties into the folder accumulator. -/
def addFolderProps (props : List (String × List String))
    (entries : List (String × String)) : List (String × List String) :=
  entries.foldl (fun acc e => addPropVals acc e.1 [e.2]) props

/-- Upsert into the folder table: the `entry(folder_path).or_default()`
pattern, appending the geometry, adding the point count and merging the
string properties of one feature. -/
def updFolder (accs : List (String × FolderAcc)) (folder : String) (g : GeomValue)
    (n : Nat) (entries : List (String × String)) : List (String × FolderAcc) :=
  match accs with
  | [] => [(folder, ⟨[g], n, addFolderProps [] entries⟩)]
  | (f, acc) :: rest =>
      if f = folder then
        (f, ⟨acc.geoms ++ [g], acc.totalPoints + n, addFolderProps acc.otherProps entries⟩)
          :: rest
      else (f, acc) :: updFolder rest folder g n entries

/-- String-valued properties of a feature other than `SourceFileDir` and
`number_of_points` (the loop at lines 87–96 of the source). -/
def stringEntries (m : List (String × JVal)) : List (String × String) :=
  m.filterMap fun e =>
    if e.1 ≠ "SourceFileDir" ∧ e.1 ≠ "number_of_points" then
      (e.2.asStr).map (fun s => (e.1, s))
    else none

/-- Fallible per-feature step of `group_features_by_folder`: every `unwrap`
in the source is modelled by an `Option` bind, so `none` models a panic. -/
def folderStep (accs : List (String × FolderAcc)) (f : Feature) :
    Option (List (String × FolderAcc)) := do
  let m ← f.props
  let folder ← (getProp m "SourceFileDir").bind JVal.asStr
  let g ← f.geometry
  let n ← (getProp m "number_of_points").bind JVal.asU64
  return updFolder accs folder g n (stringEntries m)

/-- Embedding of `group_features_by_folder`; the `HashMap` is determinised
as a first-insertion-ordered association list (all theorems below consult it
only through key lookups and its length). -/
def groupFeaturesByFolder (features : List Feature) :
    Option (List (String × FolderAcc)) :=
  features.foldlM folderStep []

/-- Exterior coordinates taken from a geometry in `group_by_shared_vertex`:
a polygon contributes its first ring, anything else an empty list.  (The
Rust source indexes `coords[0]`, which panics on a ring-less polygon; the
theorems below only concern polygons with at least one ring, where the two
agree.) -/
def geomCoords : GeomValue → List Q2
  | .polygon rings => rings.headD []
  | .other => []

/-- Shared-vertex test of one candidate geometry against the current group
(`group.iter().any(...)` with exact coordinate equality). -/
def sharesVertex (group : List GeomValue) (g : GeomValue) : Bool :=
  let gc := geomCoords g
  group.any fun h =>
    match h with
    | .polygon rings => (rings.headD []).any fun c => gc.contains c
    | .other => false

/-- Inner scan of `group_by_shared_vertex`: walk the pending geometries left
to right, absorbing into the group each one that shares a vertex with some
current member and keeping the rest (in order).  Absorbed geometries join
the group immediately and participate in later tests; geometries already
passed over are not revisited. -/
def absorbPass (group : List GeomValue) (pending kept : List GeomValue) :
    List GeomValue × List GeomValue :=
  match pending with
  | [] => (group, kept.reverse)
  | g :: rest =>
      if sharesVertex group g then absorbPass (group ++ [g]) rest kept
      else absorbPass group rest (g :: kept)

/-- Outer loop of `group_by_shared_vertex` (fuelled by the list length: each
round removes at least the popped seed). -/
def gbsvGo : Nat → List GeomValue → List (List GeomValue)
  | 0, _ => []
  | Nat.succ fuel, gs =>
      match gs.getLast? with
      | none => []
      | some seed =>
          let pr := absorbPass [seed] gs.dropLast []
          pr.1 :: gbsvGo fuel pr.2

/-- Embedding of `group_by_shared_vertex`: repeatedly pop the last geometry
as a seed and absorb everything reachable in one left-to-right pass. -/
def groupBySharedVertex (geoms : List GeomValue) : List (List GeomValue) :=
  gbsvGo geoms.length geoms

/-- Embedding of `merge_group`: fold the group, at each step combining the
accumulated hull's exterior ring with the next polygon's exterior ring and
retaking the convex hull.  `none` models the `geom_coords[0]` panic on a
ring-less polygon; non-polygon geometries are skipped. -/
def mergeGroup (geoms : List GeomValue) : Option (List Q2) :=
  geoms.foldlM
    (fun acc g =>
      match g with
      | .polygon rings =>
          match rings with
          | [] => none
          | r :: _ => some (hullRing (acc ++ r))
      | .other => some acc)
    []

/-- Embedding of `create_feature`: emit a feature with the merged ring and
the folder-level aggregated properties. -/
def createFeature (folder : String) (totalPoints : Nat)
    (otherProps : List (String × List String)) (ring : List Q2) : Feature :=
  { geometry := some (.polygon [ring])
    props := some (("SourceFileDir", .jstr folder)
      :: ("number_of_points", .ju64 totalPoints)
      :: otherProps.map fun e => (e.1, .jarr e.2)) }

/-- Embedding of `merge_geometries`: group features by folder, then emit one
feature per folder (or one per shared-vertex group when
`onlyJoinIfSharedVertex` is set), each carrying the folder-level totals. -/
def mergeGeometries (onlyJoinIfSharedVertex : Bool) (features : List Feature) :
    Option (List Feature) := do
  let accs ← groupFeaturesByFolder features
  accs.foldlM
    (fun out e =>
      let folder := e.1
      let acc := e.2
      if onlyJoinIfSharedVertex then
        (groupBySharedVertex acc.geoms).foldlM
          (fun out2 grp => do
            let ring ← mergeGroup grp
            return out2 ++ [createFeature folder acc.totalPoints acc.otherProps ring])
          out
      else do
        let ring ← mergeGroup acc.geoms
        return out ++ [createFeature folder acc.totalPoints acc.otherProps ring])
    []

/-! ### Specification-side functions

The following definitions state, in the spec's terms, what the merge engine
is claimed to compute; the theorems compare them with the embedded code. -/

/-- Decidable validity of a feature for `group_features_by_folder`: a
property map with a string-valued `SourceFileDir` and a `u64`-valued
`number_of_points`, and a geometry present.  Every `unwrap` of that function
succeeds exactly on such features. -/
def validFeature (f : Feature) : Bool :=
  match f.props with
  | none => false
  | some m =>
      ((getProp m "SourceFileDir").bind JVal.asStr).isSome
        && f.geometry.isSome
        && ((getProp m "number_of_points").bind JVal.asU64).isSome

/-- Folder of a feature, when its properties carry one. -/
def featureFolder (f : Feature) : Option String :=
  f.props.bind fun m => (getProp m "SourceFileDir").bind JVal.asStr

/-- Declared point count of a feature (0 when absent). -/
def featureCount (f : Feature) : Nat :=
  (f.props.bind fun m => (getProp m "number_of_points").bind JVal.asU64).getD 0

/-- Left fold keeping the first occurrence of each value (the distinct-value
collection order used by the property aggregation). -/
def distinctConcat (vs : List String) : List String :=
  dedupAppend [] vs

/-- Folders of a feature list, in first-appearance order. -/
def foldersOf (features : List Feature) : List String :=
  distinctConcat (features.filterMap featureFolder)

/-- Features of one folder, in order. -/
def folderFeatures (features : List Feature) (folder : String) : List Feature :=
  features.filter fun f => featureFolder f = some folder

/-- Specification-side total point count of one folder: the sum over the
folder's features. -/
def folderTotal (features : List Feature) (folder : String) : Nat :=
  ((folderFeatures features folder).map featureCount).sum

/-- Values under key `k` in an entry list, in order. -/
def keyVals (es : List (String × String)) (k : String) : List String :=
  es.filterMap fun e => if e.1 = k then some e.2 else none

/-- Values of string property `k` contributed by one feature. -/
def featureVals (f : Feature) (k : String) : List String :=
  match f.props with
  | some m => keyVals (stringEntries m) k
  | none => []

/-- Specification-side distinct value list of string property `k` over one
folder, in insertion order. -/
def folderVals (features : List Feature) (folder : String) (k : String) : List String :=
  distinctConcat ((folderFeatures features folder).flatMap fun f => featureVals f k)

/-- Geometries of one folder, in order. -/
def folderGeoms (features : List Feature) (folder : String) : List GeomValue :=
  (folderFeatures features folder).filterMap (·.geometry)

/-- Key lookup in the per-key string-value table of a folder accumulator. -/
def getVals (props : List (String × List String)) (k : String) : Option (List String) :=
  (props.find? (fun e => e.1 = k)).map (·.2)

/-- Folder lookup in the folder table. -/
def findAcc (accs : List (String × FolderAcc)) (F : String) : Option FolderAcc :=
  (accs.find? fun e => e.1 = F).map (·.2)

/-- Total (panic-free) restatement of one step of the
`group_features_by_folder` fold: a feature failing the property accesses is
skipped instead of panicking. -/
def buildStep (accs : List (String × FolderAcc)) (f : Feature) :
    List (String × FolderAcc) :=
  match f.props with
  | some m =>
      match (getProp m "SourceFileDir").bind JVal.asStr, f.geometry,
          (getProp m "number_of_points").bind JVal.asU64 with
      | some folder, some g, some n => updFolder accs folder g n (stringEntries m)
      | _, _, _ => accs
  | none => accs

/-- Total restatement of the `group_features_by_folder` fold, used to
characterise its successful runs. -/
def buildAccs (features : List Feature) : List (String × FolderAcc) :=
  features.foldl buildStep []

/-- Exact shared-vertex relation between two geometries (the code compares
coordinates with exact equality). -/
def sharesCoords (g h : GeomValue) : Prop :=
  ∃ c, c ∈ geomCoords g ∧ c ∈ geomCoords h

/-- Chain connectivity through geometries of `l` under the exact
shared-vertex relation. -/
def chainConnected (l : List GeomValue) (a b : GeomValue) : Prop :=
  Relation.ReflTransGen (fun x y => x ∈ l ∧ y ∈ l ∧ sharesCoords x y) a b

/-- All exterior rings of a geometry list, concatenated (the "union of the
polygons' exterior vertices" of the folder-fold claim). -/
def allExteriorCoords (geoms : List GeomValue) : List Q2 :=
  geoms.flatMap geomCoords

/-! ## Theorems -/

/-! ### CRS guessing -/

theorem guessLoop_spec (points : List Q2) (isGeo isProj : Bool) :
    guessLoop points isGeo isProj =
      if isGeo && points.all fitsEpsg4326 then some "EPSG:4326".data
      else if isProj && points.all fitsEpsg2193 then some "EPSG:2193".data
      else none := by
  induction points generalizing isGeo isProj with
  | nil => cases isGeo <;> cases isProj <;> simp [guessLoop]
  | cons p rest ih =>
      cases hg : isGeo <;> cases hp : isProj <;>
        cases hf : fitsEpsg4326 p <;> cases hf2 : fitsEpsg2193 p <;>
        simp only [guessLoop, ih, hf, hf2, List.all_cons, Bool.true_and, Bool.false_and,
          Bool.and_true, Bool.and_false, Bool.not_true, Bool.not_false] <;> simp

/-- C2: for a non-empty sample, `guess_crs_from_points` returns
`"EPSG:4326"` when every point lies strictly inside the geographic box
`(-180,180) × (-90,90)`; otherwise `"EPSG:2193"` when every point lies
strictly inside the projected box `(800000,2400000) × (4000000,9000000)`;
otherwise it fails (`none`, modelling `UnableToGuessCrs`).  For an empty
sample it always fails.  (The source's early exit once both candidate flags
are false changes no result, as this characterisation shows.) -/
theorem guess_crs_characterisation (points : List Q2) :
    guessCrsFromPoints points =
      if points = [] then none
      else if ∀ p ∈ points, -180 < p.1 ∧ p.1 < 180 ∧ -90 < p.2 ∧ p.2 < 90 then
        some "EPSG:4326".data
      else if ∀ p ∈ points,
          800000 < p.1 ∧ p.1 < 2400000 ∧ 4000000 < p.2 ∧ p.2 < 9000000 then
        some "EPSG:2193".data
      else none := by
  have hfit : ∀ p : Q2, fitsEpsg4326 p = true ↔
      (-180 < p.1 ∧ p.1 < 180 ∧ -90 < p.2 ∧ p.2 < 90) := by
    intro p; simp [fitsEpsg4326, and_assoc]
  have hfit2 : ∀ p : Q2, fitsEpsg2193 p = true ↔
      (800000 < p.1 ∧ p.1 < 2400000 ∧ 4000000 < p.2 ∧ p.2 < 9000000) := by
    intro p; simp [fitsEpsg2193, and_assoc]
  unfold guessCrsFromPoints
  rcases points with _ | ⟨p, rest⟩
  · simp
  · rw [guessLoop_spec]
    simp only [List.isEmpty_cons, Bool.true_and, List.all_eq_true, hfit, hfit2]
    split_ifs with h1 h2 h3 h4 h5 <;> simp_all

/-! ### Sampling for CRS guessing -/

/-- C7 (amended): for a compressed (`.laz`) tile, `guess_las_crs` samples the
first `min(10, totalPoints)` points of the file — the literal `10` from the
source — regardless of the requested sample size or of the random index
stream, so the result is independent of the request. -/
theorem laz_sample_ignores_request (numPoints altN : Nat) (draws altDraws : List Nat)
    (filePoints : List Q2) :
    guessLasCrs true numPoints draws filePoints
        = guessCrsFromPoints (filePoints.take (min 10 filePoints.length))
      ∧ guessLasCrs true numPoints draws filePoints
        = guessLasCrs true altN altDraws filePoints :=
  ⟨rfl, rfl⟩

/-- C7 (counterexample): on a 15-point `.laz` tile with requested sample size
5, the claim predicts the sample `take (min 5 15)` (five geographic points,
hence `"EPSG:4326"`), but the code samples the first 10 points — the sixth
point breaks both heuristic boxes, so the code fails instead. -/
theorem laz_sample_counterexample :
    guessLasCrs true 5 []
        ([(1, 1), (2, 1), (3, 1), (4, 1), (5, 1),
          (1000000, 1000000), (1000000, 1000000), (1000000, 1000000),
          (1000000, 1000000), (1000000, 1000000),
          (1, 1), (1, 1), (1, 1), (1, 1), (1, 1)] : List Q2)
      ≠ guessCrsFromPoints
        (([(1, 1), (2, 1), (3, 1), (4, 1), (5, 1),
          (1000000, 1000000), (1000000, 1000000), (1000000, 1000000),
          (1000000, 1000000), (1000000, 1000000),
          (1, 1), (1, 1), (1, 1), (1, 1), (1, 1)] : List Q2).take
            (min 5 15)) := by
  decide

/-! ### GeoTIFF decoding bounds behaviour -/

/-- C5: `extract_crs_from_geotiff` panics (modelled by `none`) rather than
returning a recoverable error when an indexing step would exceed a buffer:
a directory declaring one key but containing no key group, a double-params
buffer indexed past its end, and an ascii-params slice past its end. -/
theorem decCharsAux_digits (fuel : Nat) : ∀ n, ∀ c ∈ decCharsAux fuel n,
    ∃ d, d < 10 ∧ c = Char.ofNat (48 + d) := by
  induction fuel with
  | zero => intro n c hc; cases n <;> simp [decCharsAux] at hc
  | succ fuel ih =>
      intro n c hc
      cases n with
      | zero => simp [decCharsAux] at hc
      | succ m =>
          simp only [decCharsAux, List.mem_append, List.mem_singleton] at hc
          rcases hc with hc | hc
          · exact ih _ c hc
          · exact ⟨(m + 1) % 10, Nat.mod_lt _ (by norm_num), hc⟩

theorem decRepr_digits (n : Nat) : ∀ c ∈ decRepr n, ∃ d, d < 10 ∧ c = Char.ofNat (48 + d) := by
  intro c hc
  unfold decRepr at hc
  split at hc
  · exact ⟨0, by norm_num, by simpa using hc⟩
  · exact decCharsAux_digits n n c hc

theorem decRepr_concat (n : Nat) :
    ∃ l d, d < 10 ∧ decRepr n = l ++ [Char.ofNat (48 + d)] := by
  unfold decRepr
  split
  · exact ⟨[], 0, by norm_num, rfl⟩
  · rename_i h
    cases n with
    | zero => exact absurd rfl h
    | succ m =>
        exact ⟨decCharsAux m ((m + 1) / 10), (m + 1) % 10, Nat.mod_lt _ (by norm_num), rfl⟩

theorem digit_not_ws {d : Nat} (hd : d < 10) : wsChar (Char.ofNat (48 + d)) = false := by
  interval_cases d <;> decide

theorem digit_ne_paren {d : Nat} (hd : d < 10) : Char.ofNat (48 + d) ≠ '(' := by
  interval_cases d <;> decide

theorem findSub_paren_none (hay : List Char) (rest : List Char) (h : '(' ∉ hay) :
    findSub hay (' ' :: '(' :: rest) = none := by
  induction hay with
  | nil => simp [findSub, leadsWith]
  | cons c t ih =>
      have hlead : leadsWith (' ' :: '(' :: rest) (c :: t) = false := by
        cases t with
        | nil => simp [leadsWith]
        | cons c2 t2 =>
            simp only [leadsWith, Bool.and_eq_false_iff]
            by_cases h2 : c2 = '('
            · exact absurd (by simp [h2]) (fun hmem => h hmem)
            · right; left; simpa using fun heq => h2 heq.symm
      have ht : '(' ∉ t := fun hmem => h (List.mem_cons_of_mem _ hmem)
      simp [findSub, hlead, ih ht]

theorem paren_not_mem_epsg (vo : Nat) : '(' ∉ epsgChars vo := by
  intro hmem
  simp only [epsgChars, List.mem_append, List.mem_singleton] at hmem
  rcases hmem with (hmem | hmem) | hmem
  · simp [String.data] at hmem
  · obtain ⟨d, hd, hc⟩ := decRepr_digits vo _ hmem
    exact digit_ne_paren hd hc.symm
  · simp at hmem

theorem trimChars_epsg (vo : Nat) :
    trimChars (epsgChars vo) = "EPSG:".data ++ decRepr vo := by
  obtain ⟨l, d, hd, hrepr⟩ := decRepr_concat vo
  have hrev : (epsgChars vo).reverse
      = ' ' :: Char.ofNat (48 + d) :: (l.reverse ++ "EPSG:".data.reverse) := by
    simp [epsgChars, hrepr]
  unfold trimChars
  have hfront : (epsgChars vo).dropWhile wsChar = epsgChars vo := by
    simp [epsgChars, String.data, List.dropWhile, wsChar]
  rw [hfront, hrev]
  rw [List.dropWhile_cons_of_pos (by decide), List.dropWhile_cons_of_neg (by
    simp [digit_not_ws hd])]
  have : Char.ofNat (48 + d) :: (l.reverse ++ "EPSG:".data.reverse)
      = ("EPSG:".data ++ (l ++ [Char.ofNat (48 + d)])).reverse := by
    simp
  rw [this, List.reverse_reverse, hrepr]

theorem postKeys_epsg (vo : Nat) :
    postKeys (epsgChars vo) = "EPSG:".data ++ decRepr vo := by
  have hfind : findSub (epsgChars vo) " (EPSG:".data = none :=
    findSub_paren_none _ _ (paren_not_mem_epsg vo)
  unfold postKeys
  rw [hfind]
  simpa using trimChars_epsg vo

theorem stepKey_write_epsg (dp ap : Option (List Nat)) (acc : List Char) (g : GeoKey)
    (hk : g.keyId = 2048 ∨ g.keyId = 3072)
    (hvo : g.valueOffset ≠ 32767 ∧ g.valueOffset ≠ 65535) :
    stepKey dp ap acc g = some (epsgChars g.valueOffset) := by
  rcases hk with hk | hk <;> simp [stepKey, hk, hvo]

theorem stepKey_no_write (dp ap : Option (List Nat)) (acc : List Char) (g : GeoKey)
    (h : ¬ effectiveWrite dp ap g) : stepKey dp ap acc g = some acc := by
  unfold effectiveWrite at h
  push_neg at h
  obtain ⟨h1, h2⟩ := h
  unfold stepKey
  by_cases hk : g.keyId = 2048
  · have hv := h1 (Or.inl hk)
    simp only [hk, if_pos rfl]
    by_cases hs : g.valueOffset ≠ 32767 ∧ g.valueOffset ≠ 65535
    · exact absurd (hv hs.1) hs.2
    · simp [hs]
  · by_cases hk2 : g.keyId = 3072
    · have hv := h1 (Or.inr hk2)
      rw [if_neg hk]
      simp only [hk2, if_pos rfl]
      by_cases hs : g.valueOffset ≠ 32767 ∧ g.valueOffset ≠ 65535
      · exact absurd (hv hs.1) hs.2
      · simp [hs]
    · rw [if_neg hk, if_neg hk2]
      by_cases hc : g.keyId = 1026
      · have hloc := h2 hc
        push_neg at hloc
        obtain ⟨hdp, hap⟩ := hloc
        simp only [hc, if_pos rfl]
        by_cases hl1 : g.tagLoc = 34736
        · rcases hq : dp with _ | params
          · simp [hl1, hq]
          · exact absurd (by simp [hq]) (hdp hl1)
        · rw [if_neg hl1]
          by_cases hl2 : g.tagLoc = 34737
          · rcases hq : ap with _ | params
            · simp [hl2, hq]
            · exact absurd (by simp [hq]) (hap hl2)
          · simp [hl2]
      · simp [hc]

theorem foldlM_stepKey_no_write (dp ap : Option (List Nat)) (gs : List GeoKey)
    (acc : List Char) (h : ∀ g ∈ gs, ¬ effectiveWrite dp ap g) :
    gs.foldlM (stepKey dp ap) acc = some acc := by
  induction gs with
  | nil => rfl
  | cons g rest ih =>
      rw [List.foldlM_cons, stepKey_no_write dp ap acc g (h g (List.mem_cons_self g rest))]
      exact ih fun g' hg' => h g' (List.mem_cons_of_mem _ hg')

/-- C1 (amended): if the key directory decodes without a panic, contains a
group with `keyId` 2048 or 3072 and a non-sentinel `valueOffset`, and no
group after the last such group performs a write (a further non-sentinel
EPSG key, or a `keyId`-1026 citation whose referenced parameter buffer is
present), then the result is `"EPSG:<valueOffset>"` of that last group, the
trailing space of the formatted text being trimmed only at the very end. -/
theorem decode_last_epsg_write_wins (dir : List Nat) (dp ap : Option (List Nat))
    (h0 t1 t2 k : Nat) (vals : List Nat) (pre post : List GeoKey) (g : GeoKey)
    (htags : toU16s dir = h0 :: t1 :: t2 :: k :: vals)
    (hgroups : chunk4 vals k = some (pre ++ g :: post))
    (hk : g.keyId = 2048 ∨ g.keyId = 3072)
    (hvo : g.valueOffset ≠ 32767 ∧ g.valueOffset ≠ 65535)
    (hpost : ∀ g' ∈ post, ¬ effectiveWrite dp ap g')
    (hnp : (extractCrsFromGeotiff dir dp ap).isSome) :
    extractCrsFromGeotiff dir dp ap = some ("EPSG:".data ++ decRepr g.valueOffset) := by
  have hdef : extractCrsFromGeotiff dir dp ap =
      (((pre ++ g :: post).foldlM (stepKey dp ap) []).map postKeys) := by
    unfold extractCrsFromGeotiff
    rw [htags]
    dsimp only
    rw [hgroups]
  rw [hdef] at hnp ⊢
  rw [List.foldlM_append] at hnp ⊢
  have hpre : ∃ accPre, List.foldlM (stepKey dp ap) [] pre = some accPre := by
    rcases hq : List.foldlM (stepKey dp ap) [] pre with _ | a
    · simp [hq] at hnp
    · exact ⟨a, rfl⟩
  obtain ⟨accPre, hpre⟩ := hpre
  have hstep : (g :: post).foldlM (stepKey dp ap) accPre
      = some (epsgChars g.valueOffset) := by
    rw [List.foldlM_cons, stepKey_write_epsg dp ap accPre g hk hvo]
    exact foldlM_stepKey_no_write dp ap post _ hpost
  simp only [hpre]
  have hfin : Option.map postKeys (List.foldlM (stepKey dp ap) accPre (g :: post))
      = some ("EPSG:".data ++ decRepr g.valueOffset) := by
    rw [hstep]
    simp [postKeys_epsg]
  exact hfin

/-- C1 (witness): a directory with header `[0,0,0,1]` and the single key
group `(2048, 0, 1, 4326)` decodes to `"EPSG:4326"`. -/
theorem decode_last_epsg_witness :
    extractCrsFromGeotiff [0, 0, 0, 0, 0, 0, 1, 0, 0, 8, 0, 0, 1, 0, 230, 16]
        none none = some "EPSG:4326".data := by
  have h := decode_last_epsg_write_wins
    [0, 0, 0, 0, 0, 0, 1, 0, 0, 8, 0, 0, 1, 0, 230, 16] none none 0 0 0 1
    [2048, 0, 1, 4326] [] [] ⟨2048, 0, 1, 4326⟩ (by decide) (by decide)
    (by decide) (by decide) (by decide) (by decide)
  rw [h]
  decide

/-- C1 (counterexample): a directory whose groups are
`(2048, 0, 1, 4326)` followed by the citation group `(1026, 34737, 2, 0)`
with ascii parameters `"A"` contains a non-sentinel `keyId`-2048 group, yet
decodes to `"A"`, not `"EPSG:4326"`: the later citation write overwrites the
EPSG result. -/
theorem decode_last_epsg_counterexample :
    extractCrsFromGeotiff
        [0, 0, 0, 0, 0, 0, 2, 0, 0, 8, 0, 0, 1, 0, 230, 16,
          2, 4, 177, 135, 2, 0, 0, 0]
        none (some [65]) = some "A".data
      ∧ "A".data ≠ "EPSG:4326".data := by
  decide

theorem decode_out_of_bounds_panics :
    extractCrsFromGeotiff [0, 0, 0, 0, 0, 0, 1, 0] none none = none
      ∧ extractCrsFromGeotiff
          [0, 0, 0, 0, 0, 0, 1, 0, 2, 4, 176, 135, 1, 0, 5, 0]
          (some [1, 2, 3]) none = none
      ∧ extractCrsFromGeotiff
          [0, 0, 0, 0, 0, 0, 1, 0, 2, 4, 177, 135, 5, 0, 2, 0]
          none (some [65, 66, 67]) = none := by
  decide

/-! ### Folder grouping: panic behaviour -/

theorem folderStep_isSome (accs : List (String × FolderAcc)) (f : Feature) :
    (folderStep accs f).isSome = validFeature f := by
  obtain ⟨geo, props⟩ := f
  cases props with
  | none => rfl
  | some m =>
      cases hs : (getProp m "SourceFileDir").bind JVal.asStr with
      | none => simp [folderStep, validFeature, hs]
      | some folder =>
          cases geo with
          | none => simp [folderStep, validFeature, hs]
          | some g =>
              cases hn : (getProp m "number_of_points").bind JVal.asU64 with
              | none => simp [folderStep, validFeature, hs, hn]
              | some n => simp [folderStep, validFeature, hs, hn]

theorem folderStep_eq_buildStep (accs : List (String × FolderAcc)) (f : Feature)
    (h : validFeature f) : folderStep accs f = some (buildStep accs f) := by
  obtain ⟨geo, props⟩ := f
  cases props with
  | none => simp [validFeature] at h
  | some m =>
      cases hs : (getProp m "SourceFileDir").bind JVal.asStr with
      | none => simp [validFeature, hs] at h
      | some folder =>
          cases geo with
          | none => simp [validFeature, hs] at h
          | some g =>
              cases hn : (getProp m "number_of_points").bind JVal.asU64 with
              | none => simp [validFeature, hs, hn] at h
              | some n => simp [folderStep, buildStep, hs, hn]

theorem foldlM_folderStep_isSome (features : List Feature) :
    ∀ accs, (features.foldlM folderStep accs).isSome
      ↔ ∀ f ∈ features, validFeature f := by
  induction features with
  | nil => intro accs; simp
  | cons f rest ih =>
      intro accs
      rw [List.foldlM_cons]
      cases hstep : folderStep accs f with
      | none =>
          have hval : validFeature f = false := by
            have := folderStep_isSome accs f
            rw [hstep] at this
            simpa using this.symm
          simp [hval]
      | some accs' =>
          have hval : validFeature f = true := by
            have := folderStep_isSome accs f
            rw [hstep] at this
            simpa using this.symm
          simp [ih accs', hval]

theorem foldlM_folderStep_valid (features : List Feature) :
    ∀ accs, (∀ f ∈ features, validFeature f) →
      features.foldlM folderStep accs = some (features.foldl buildStep accs) := by
  induction features with
  | nil => intro accs _; rfl
  | cons f rest ih =>
      intro accs h
      rw [List.foldlM_cons,
        folderStep_eq_buildStep accs f (h f (List.mem_cons_self f rest))]
      exact ih (buildStep accs f) fun g hg => h g (List.mem_cons_of_mem _ hg)

theorem groupFeatures_eq_buildAccs (features : List Feature)
    (h : ∀ f ∈ features, validFeature f) :
    groupFeaturesByFolder features = some (buildAccs features) :=
  foldlM_folderStep_valid features [] h

/-- C10: `merge_geometries` has the undocumented precondition that every
feature carries a property map with a string-valued `SourceFileDir`, a
`u64`-valued `number_of_points`, and a geometry: grouping by folder panics
(`none`) exactly on collections violating it — hence so does
`merge_geometries`, whose first act is that grouping — and on collections
satisfying it the folder-grouping pass performs no panicking access. -/
theorem merge_geometries_access_precondition (features : List Feature) (b : Bool) :
    ((groupFeaturesByFolder features).isSome ↔ ∀ f ∈ features, validFeature f)
      ∧ ((¬ ∀ f ∈ features, validFeature f) → mergeGeometries b features = none) := by
  constructor
  · exact foldlM_folderStep_isSome features []
  · intro h
    have hnone : groupFeaturesByFolder features = none := by
      cases hq : groupFeaturesByFolder features with
      | none => rfl
      | some accs =>
          exact absurd ((foldlM_folderStep_isSome features []).mp (by
            unfold groupFeaturesByFolder at hq
            simp [hq])) h
    unfold mergeGeometries
    rw [hnone]
    rfl

/-- C10 (witness): a valid single-feature collection groups without a panic,
and a single feature with no property map makes `merge_geometries` panic. -/
theorem merge_geometries_access_precondition_witness :
    (groupFeaturesByFolder
        [⟨some (GeomValue.polygon [[((0 : ℚ), (0 : ℚ))]]),
          some [("SourceFileDir", JVal.jstr "d"), ("number_of_points", JVal.ju64 3)]⟩]).isSome
      ∧ mergeGeometries false [⟨some (GeomValue.polygon [[]]), none⟩] = none := by
  constructor
  · exact (merge_geometries_access_precondition _ false).1.mpr (by decide)
  · exact (merge_geometries_access_precondition _ false).2 (by decide)

/-! ### Shared-vertex grouping -/

theorem sharesCoords_symm {g h : GeomValue} (hs : sharesCoords g h) : sharesCoords h g := by
  obtain ⟨c, h1, h2⟩ := hs
  exact ⟨c, h2, h1⟩

theorem chainConnected_symm {l : List GeomValue} {a b : GeomValue}
    (h : chainConnected l a b) : chainConnected l b a := by
  refine Relation.ReflTransGen.symmetric ?_ h
  rintro x y ⟨hx, hy, hs⟩
  exact ⟨hy, hx, sharesCoords_symm hs⟩

theorem sharesVertex_spec {group : List GeomValue} {g : GeomValue}
    (h : sharesVertex group g = true) : ∃ x ∈ group, sharesCoords x g := by
  unfold sharesVertex at h
  rw [List.any_eq_true] at h
  obtain ⟨x, hx, hmatch⟩ := h
  refine ⟨x, hx, ?_⟩
  cases x with
  | polygon rings =>
      rw [List.any_eq_true] at hmatch
      obtain ⟨c, hc, hcg⟩ := hmatch
      exact ⟨c, by simpa [geomCoords] using hc, by simpa using hcg⟩
  | other => simp at hmatch

theorem absorbPass_spec (geoms : List GeomValue) :
    ∀ (pending group kept : List GeomValue),
      (∀ x ∈ group, x ∈ geoms) → (∀ x ∈ pending, x ∈ geoms) →
      (∀ x ∈ group, ∀ y ∈ group, chainConnected geoms x y) →
      (∀ x ∈ (absorbPass group pending kept).1,
          ∀ y ∈ (absorbPass group pending kept).1, chainConnected geoms x y)
        ∧ (∀ x ∈ (absorbPass group pending kept).1, x ∈ geoms)
        ∧ (∀ x ∈ (absorbPass group pending kept).2, x ∈ kept ∨ x ∈ pending)
        ∧ (absorbPass group pending kept).2.length ≤ kept.length + pending.length := by
  intro pending
  induction pending with
  | nil =>
      intro group kept hg _ hconn
      refine ⟨hconn, hg, ?_, ?_⟩
      · intro x hx
        simp only [absorbPass] at hx
        rw [List.mem_reverse] at hx
        exact Or.inl hx
      · simp [absorbPass]
  | cons g rest ih =>
      intro group kept hg hp hconn
      by_cases hs : sharesVertex group g = true
      · have hg' : ∀ x ∈ group ++ [g], x ∈ geoms := by
          intro x hx
          rcases List.mem_append.mp hx with hx | hx
          · exact hg x hx
          · rw [List.mem_singleton] at hx
            exact hx ▸ hp g (List.mem_cons_self g rest)
        have hstep : ∃ x ∈ group, sharesCoords x g := sharesVertex_spec hs
        have hconn' : ∀ x ∈ group ++ [g], ∀ y ∈ group ++ [g], chainConnected geoms x y := by
          obtain ⟨x0, hx0, hs0⟩ := hstep
          have hx0g : chainConnected geoms x0 g :=
            Relation.ReflTransGen.single
              ⟨hg x0 hx0, hp g (List.mem_cons_self g rest), hs0⟩
          intro x hx y hy
          rcases List.mem_append.mp hx with hx | hx <;>
            rcases List.mem_append.mp hy with hy | hy
          · exact hconn x hx y hy
          · rw [List.mem_singleton] at hy
            exact hy ▸ (hconn x hx x0 hx0).trans hx0g
          · rw [List.mem_singleton] at hx
            exact hx ▸ (chainConnected_symm hx0g).trans (hconn x0 hx0 y hy)
          · rw [List.mem_singleton] at hx
            rw [List.mem_singleton] at hy
            exact hx ▸ hy ▸ Relation.ReflTransGen.refl
        have hrec := ih (group ++ [g]) kept hg'
          (fun x hx => hp x (List.mem_cons_of_mem _ hx)) hconn'
        have habs : absorbPass group (g :: rest) kept
            = absorbPass (group ++ [g]) rest kept := by
          simp [absorbPass, hs]
        rw [habs]
        refine ⟨hrec.1, hrec.2.1, ?_, ?_⟩
        · intro x hx
          rcases hrec.2.2.1 x hx with hx | hx
          · exact Or.inl hx
          · exact Or.inr (List.mem_cons_of_mem _ hx)
        · calc (absorbPass (group ++ [g]) rest kept).2.length
              ≤ kept.length + rest.length := hrec.2.2.2
          _ ≤ kept.length + (g :: rest).length := by simp [Nat.le_succ_of_le]
      · have hrec := ih group (g :: kept) hg
          (fun x hx => hp x (List.mem_cons_of_mem _ hx)) hconn
        have habs : absorbPass group (g :: rest) kept
            = absorbPass group rest (g :: kept) := by
          simp [absorbPass, hs]
        rw [habs]
        refine ⟨hrec.1, hrec.2.1, ?_, ?_⟩
        · intro x hx
          rcases hrec.2.2.1 x hx with hx | hx
          · rcases List.mem_cons.mp hx with hx | hx
            · exact Or.inr (hx ▸ List.mem_cons_self g rest)
            · exact Or.inl hx
          · exact Or.inr (List.mem_cons_of_mem _ hx)
        · calc (absorbPass group rest (g :: kept)).2.length
              ≤ (g :: kept).length + rest.length := hrec.2.2.2
          _ = kept.length + (g :: rest).length := by simp; omega

theorem gbsvGo_spec (geoms : List GeomValue) :
    ∀ (fuel : Nat) (gs : List GeomValue), gs.length ≤ fuel →
      (∀ x ∈ gs, x ∈ geoms) →
      ∀ grp ∈ gbsvGo fuel gs, ∀ x ∈ grp, ∀ y ∈ grp, chainConnected geoms x y := by
  intro fuel
  induction fuel with
  | zero => intro gs _ _ grp hgrp; simp [gbsvGo] at hgrp
  | succ fuel ih =>
      intro gs hlen hsub grp hgrp
      cases hlast : gs.getLast? with
      | none => simp [gbsvGo, hlast] at hgrp
      | some seed =>
          obtain ⟨ys, hys⟩ := List.getLast?_eq_some_iff.mp hlast
          have hseed : seed ∈ gs := by rw [hys]; simp
          have hdrop : gs.dropLast = ys := by rw [hys]; simp
          have hspec := absorbPass_spec geoms gs.dropLast [seed]
            []
            (by intro x hx; rw [List.mem_singleton] at hx; exact hx ▸ hsub seed hseed)
            (fun x hx => hsub x (List.dropLast_subset gs hx))
            (by
              intro x hx y hy
              rw [List.mem_singleton] at hx
              rw [List.mem_singleton] at hy
              exact hx ▸ hy ▸ Relation.ReflTransGen.refl)
          rw [gbsvGo, hlast] at hgrp
          simp only [List.mem_cons] at hgrp
          rcases hgrp with hgrp | hgrp
          · exact hgrp ▸ hspec.1
          · refine ih (absorbPass [seed] gs.dropLast []).2 ?_ ?_ grp hgrp
            · have hd : (absorbPass [seed] gs.dropLast []).2.length
                  ≤ [].length + gs.dropLast.length := hspec.2.2.2
              have h1 : gs.dropLast.length = ys.length := by rw [hdrop]
              have h2 : gs.length = ys.length + 1 := by rw [hys]; simp
              simp only [List.length_nil] at hd
              omega
            · intro x hx
              rcases hspec.2.2.1 x hx with hx | hx
              · simp at hx
              · exact hsub x (List.dropLast_subset gs hx)

/-- C3 (amended): any two geometries placed in the same output group by
`group_by_shared_vertex` are connected by a chain of geometries of the
partition in which consecutive geometries share a vertex with exactly equal
coordinates (the code compares coordinates exactly; no 1e-7 tolerance
exists).  The converse direction of the original claim is false: the single
greedy pass can split a chain-connected component (see the
counterexample). -/
theorem shared_vertex_groups_chain_connected (geoms : List GeomValue)
    (grp : List GeomValue) (hgrp : grp ∈ groupBySharedVertex geoms)
    (a b : GeomValue) (ha : a ∈ grp) (hb : b ∈ grp) :
    chainConnected geoms a b :=
  gbsvGo_spec geoms geoms.length geoms le_rfl (fun _ hx => hx) grp hgrp a ha b hb

/-- C3 (witness): two unit squares sharing the single vertex `(1,1)` are
grouped together, and the theorem yields their chain connection. -/
theorem shared_vertex_groups_chain_connected_witness :
    chainConnected
      [GeomValue.polygon [[(0, 0), (1, 0), (1, 1), (0, 1), (0, 0)]],
        GeomValue.polygon [[(1, 1), (2, 1), (2, 2), (1, 2), (1, 1)]]]
      (GeomValue.polygon [[(0, 0), (1, 0), (1, 1), (0, 1), (0, 0)]])
      (GeomValue.polygon [[(1, 1), (2, 1), (2, 2), (1, 2), (1, 1)]]) :=
  shared_vertex_groups_chain_connected
    [GeomValue.polygon [[(0, 0), (1, 0), (1, 1), (0, 1), (0, 0)]],
      GeomValue.polygon [[(1, 1), (2, 1), (2, 2), (1, 2), (1, 1)]]]
    [GeomValue.polygon [[(1, 1), (2, 1), (2, 2), (1, 2), (1, 1)]],
      GeomValue.polygon [[(0, 0), (1, 0), (1, 1), (0, 1), (0, 0)]]]
    (by decide) _ _ (by decide) (by decide)

/-- C3 (counterexample): in the list `[A, B, C]` with `A` sharing vertex
`(1,1)` with `B` and `B` sharing `(2,2)` with `C` (and `A`, `C` disjoint),
`A` and `B` are chain-connected, yet the grouping pass seeds on `C`, absorbs
only `B` (A was passed over before `B` joined), and emits `A` separately: the
claimed "same group iff chain-connected" equivalence fails. -/
theorem shared_vertex_groups_counterexample :
    chainConnected
        [GeomValue.polygon [[(0, 0), (1, 0), (1, 1), (0, 1), (0, 0)]],
          GeomValue.polygon [[(1, 1), (2, 1), (2, 2), (1, 2), (1, 1)]],
          GeomValue.polygon [[(2, 2), (3, 2), (3, 3), (2, 3), (2, 2)]]]
        (GeomValue.polygon [[(0, 0), (1, 0), (1, 1), (0, 1), (0, 0)]])
        (GeomValue.polygon [[(1, 1), (2, 1), (2, 2), (1, 2), (1, 1)]])
      ∧ ∀ grp ∈ groupBySharedVertex
          [GeomValue.polygon [[(0, 0), (1, 0), (1, 1), (0, 1), (0, 0)]],
            GeomValue.polygon [[(1, 1), (2, 1), (2, 2), (1, 2), (1, 1)]],
            GeomValue.polygon [[(2, 2), (3, 2), (3, 3), (2, 3), (2, 2)]]],
          ¬ (GeomValue.polygon [[(0, 0), (1, 0), (1, 1), (0, 1), (0, 0)]] ∈ grp
              ∧ GeomValue.polygon [[(1, 1), (2, 1), (2, 2), (1, 2), (1, 1)]] ∈ grp) := by
  constructor
  · exact Relation.ReflTransGen.single
      ⟨by decide, by decide, ⟨((1 : ℚ), (1 : ℚ)), by decide, by decide⟩⟩
  · decide

/-! ### Folder aggregation -/

theorem getVals_nil (k : String) : getVals [] k = none := rfl

theorem getVals_cons_self (k : String) (vals : List String)
    (rest : List (String × List String)) :
    getVals ((k, vals) :: rest) k = some vals := by
  simp [getVals]

theorem getVals_cons_other {k0 k : String} (h : ¬ k0 = k) (vals : List String)
    (rest : List (String × List String)) :
    getVals ((k0, vals) :: rest) k = getVals rest k := by
  simp [getVals, List.find?_cons, h]

theorem findAcc_cons_self (F : String) (acc : FolderAcc)
    (rest : List (String × FolderAcc)) :
    findAcc ((F, acc) :: rest) F = some acc := by
  simp [findAcc]

theorem findAcc_cons_other {f0 F : String} (h : ¬ f0 = F) (acc : FolderAcc)
    (rest : List (String × FolderAcc)) :
    findAcc ((f0, acc) :: rest) F = findAcc rest F := by
  simp [findAcc, List.find?_cons, h]

theorem dedupAppend_append (vals xs ys : List String) :
    dedupAppend vals (xs ++ ys) = dedupAppend (dedupAppend vals xs) ys := by
  simp only [dedupAppend, List.foldl_append]

theorem dedupAppend_cons_eq (vals : List String) (v : String) (vs : List String) :
    dedupAppend vals (v :: vs) = dedupAppend (dedupAppend vals [v]) vs := rfl

theorem addPropVals_cons_self (k : String) (vals : List String)
    (rest : List (String × List String)) (vs : List String) :
    addPropVals ((k, vals) :: rest) k vs = (k, dedupAppend vals vs) :: rest := by
  simp [addPropVals]

theorem addPropVals_cons_other {k0 k : String} (h : ¬ k0 = k) (vals : List String)
    (rest : List (String × List String)) (vs : List String) :
    addPropVals ((k0, vals) :: rest) k vs = (k0, vals) :: addPropVals rest k vs := by
  simp [addPropVals, h]

theorem updFolder_cons_self (F : String) (acc : FolderAcc)
    (rest : List (String × FolderAcc)) (g : GeomValue) (n : Nat)
    (es : List (String × String)) :
    updFolder ((F, acc) :: rest) F g n es
      = (F, ⟨acc.geoms ++ [g], acc.totalPoints + n, addFolderProps acc.otherProps es⟩)
          :: rest := by
  simp [updFolder]

theorem updFolder_cons_other {f0 F : String} (h : ¬ f0 = F) (acc : FolderAcc)
    (rest : List (String × FolderAcc)) (g : GeomValue) (n : Nat)
    (es : List (String × String)) :
    updFolder ((f0, acc) :: rest) F g n es = (f0, acc) :: updFolder rest F g n es := by
  simp [updFolder, h]

theorem dedupAppend_cons (vals : List String) (v : String) (vs : List String) :
    dedupAppend vals (v :: vs)
      = dedupAppend (if vals.contains v then vals else vals ++ [v]) vs := rfl

theorem dedupAppend_mem (vs : List String) :
    ∀ vals v, v ∈ dedupAppend vals vs ↔ v ∈ vals ∨ v ∈ vs := by
  induction vs with
  | nil => intro vals v; simp [dedupAppend]
  | cons x vs ih =>
      intro vals v
      rw [dedupAppend_cons]
      by_cases hx : vals.contains x
      · rw [if_pos hx, ih]
        have hxv : x ∈ vals := by simpa using hx
        constructor
        · rintro (h | h)
          · exact Or.inl h
          · exact Or.inr (List.mem_cons_of_mem _ h)
        · rintro (h | h)
          · exact Or.inl h
          · rcases List.mem_cons.mp h with h | h
            · exact Or.inl (h ▸ hxv)
            · exact Or.inr h
      · rw [if_neg hx, ih]
        simp only [List.mem_append, List.mem_singleton, List.mem_cons]
        tauto

theorem dedupAppend_ne_nil_right (vals : List String) {vs : List String} (h : vs ≠ []) :
    dedupAppend vals vs ≠ [] := by
  rcases vs with _ | ⟨v, vs⟩
  · exact absurd rfl h
  · intro hnil
    have : v ∈ dedupAppend vals (v :: vs) :=
      (dedupAppend_mem _ _ _).mpr (Or.inr (List.mem_cons_self _ _))
    rw [hnil] at this
    simp at this

theorem getVals_addPropVals_self (props : List (String × List String))
    (k : String) (vs : List String) :
    getVals (addPropVals props k vs) k
      = some (dedupAppend ((getVals props k).getD []) vs) := by
  induction props with
  | nil => simp [addPropVals, getVals]
  | cons e rest ih =>
      obtain ⟨k', vals⟩ := e
      by_cases hk : k' = k
      · subst hk
        rw [addPropVals_cons_self, getVals_cons_self, getVals_cons_self, Option.getD_some]
      · rw [addPropVals_cons_other hk, getVals_cons_other hk, getVals_cons_other hk]
        exact ih

theorem getVals_addPropVals_other (props : List (String × List String))
    (k k' : String) (vs : List String) (h : ¬ k' = k) :
    getVals (addPropVals props k vs) k' = getVals props k' := by
  induction props with
  | nil =>
      simp only [addPropVals, getVals_nil]
      exact getVals_cons_other (fun hq => h hq.symm) _ _
  | cons e rest ih =>
      obtain ⟨k0, vals⟩ := e
      by_cases hk : k0 = k
      · subst hk
        rw [addPropVals_cons_self,
          getVals_cons_other (fun hq => h hq.symm), getVals_cons_other (fun hq => h hq.symm)]
      · rw [addPropVals_cons_other hk]
        by_cases hk0 : k0 = k'
        · subst hk0
          rw [getVals_cons_self, getVals_cons_self]
        · rw [getVals_cons_other hk0, getVals_cons_other hk0]
          exact ih

theorem getVals_addFolderProps (es : List (String × String)) :
    ∀ (props : List (String × List String)) (k : String),
      getVals (addFolderProps props es) k
        = if keyVals es k = [] then getVals props k
          else some (dedupAppend ((getVals props k).getD []) (keyVals es k)) := by
  induction es with
  | nil => intro props k; simp [addFolderProps, keyVals]
  | cons e es ih =>
      intro props k
      have hstep : addFolderProps props (e :: es)
          = addFolderProps (addPropVals props e.1 [e.2]) es := rfl
      by_cases hk : e.1 = k
      · have hkv : keyVals (e :: es) k = e.2 :: keyVals es k := by
          simp [keyVals, hk]
        rw [hstep, ih, hkv, hk]
        by_cases hes : keyVals es k = []
        · rw [if_pos hes, if_neg (by simp), getVals_addPropVals_self, hes]
        · rw [if_neg hes, if_neg (by simp), getVals_addPropVals_self, Option.getD_some]
          rfl
      · have hkv : keyVals (e :: es) k = keyVals es k := by
          simp [keyVals, hk]
        rw [hstep, ih, hkv, getVals_addPropVals_other _ _ _ _ fun hq => hk hq.symm]

theorem findAcc_nil (F : String) : findAcc [] F = none := rfl

theorem findAcc_updFolder_self (accs : List (String × FolderAcc)) (F : String)
    (g : GeomValue) (n : Nat) (es : List (String × String)) :
    findAcc (updFolder accs F g n es) F
      = some (match findAcc accs F with
              | some acc =>
                  ⟨acc.geoms ++ [g], acc.totalPoints + n, addFolderProps acc.otherProps es⟩
              | none => ⟨[g], n, addFolderProps [] es⟩) := by
  induction accs with
  | nil => simp only [updFolder, findAcc_nil, findAcc_cons_self]
  | cons e rest ih =>
      obtain ⟨f0, acc0⟩ := e
      by_cases hf : f0 = F
      · subst hf
        rw [updFolder_cons_self, findAcc_cons_self, findAcc_cons_self]
      · rw [updFolder_cons_other hf, findAcc_cons_other hf, findAcc_cons_other hf]
        exact ih

theorem findAcc_updFolder_other (accs : List (String × FolderAcc)) (F F' : String)
    (g : GeomValue) (n : Nat) (es : List (String × String)) (h : ¬ F' = F) :
    findAcc (updFolder accs F g n es) F' = findAcc accs F' := by
  induction accs with
  | nil =>
      simp only [updFolder, findAcc_nil]
      exact findAcc_cons_other (fun hq => h hq.symm) _ _
  | cons e rest ih =>
      obtain ⟨f0, acc0⟩ := e
      by_cases hf : f0 = F
      · subst hf
        rw [updFolder_cons_self, findAcc_cons_other (fun hq => h hq.symm),
          findAcc_cons_other (fun hq => h hq.symm)]
      · rw [updFolder_cons_other hf]
        by_cases hf0 : f0 = F'
        · subst hf0
          rw [findAcc_cons_self, findAcc_cons_self]
        · rw [findAcc_cons_other hf0, findAcc_cons_other hf0]
          exact ih

theorem updFolder_map_fst (accs : List (String × FolderAcc)) (F : String)
    (g : GeomValue) (n : Nat) (es : List (String × String)) :
    (updFolder accs F g n es).map Prod.fst
      = if F ∈ accs.map Prod.fst then accs.map Prod.fst
        else accs.map Prod.fst ++ [F] := by
  induction accs with
  | nil => simp [updFolder]
  | cons e rest ih =>
      obtain ⟨f0, acc0⟩ := e
      by_cases hf : f0 = F
      · subst hf
        rw [updFolder_cons_self]
        simp
      · rw [updFolder_cons_other hf]
        simp only [List.map_cons, List.mem_cons]
        rw [ih]
        by_cases hmem : F ∈ rest.map Prod.fst
        · rw [if_pos hmem, if_pos (Or.inr hmem)]
        · rw [if_neg hmem, if_neg (by
            rintro (h | h)
            · exact hf h.symm
            · exact hmem h)]
          simp

theorem findAcc_isSome_iff (accs : List (String × FolderAcc)) (F : String) :
    (findAcc accs F).isSome ↔ F ∈ accs.map Prod.fst := by
  induction accs with
  | nil => simp [findAcc]
  | cons e rest ih =>
      obtain ⟨f0, acc0⟩ := e
      by_cases hf : f0 = F
      · subst hf
        rw [findAcc_cons_self]
        simp
      · rw [findAcc_cons_other hf]
        simp only [List.map_cons, List.mem_cons]
        rw [ih]
        constructor
        · exact Or.inr
        · rintro (h | h)
          · exact absurd h.symm hf
          · exact h

theorem dedupAppend_ne_nil_left {vals : List String} (vs : List String) (h : vals ≠ []) :
    dedupAppend vals vs ≠ [] := by
  rcases vals with _ | ⟨v, vals⟩
  · exact absurd rfl h
  · intro hnil
    have hm : v ∈ dedupAppend (v :: vals) vs :=
      (dedupAppend_mem _ _ _).mpr (Or.inl (List.mem_cons_self _ _))
    rw [hnil] at hm
    simp at hm

theorem validFeature_parts {f : Feature} (h : validFeature f = true) :
    ∃ m F g n, f.props = some m
      ∧ (getProp m "SourceFileDir").bind JVal.asStr = some F
      ∧ f.geometry = some g
      ∧ (getProp m "number_of_points").bind JVal.asU64 = some n := by
  obtain ⟨geo, props⟩ := f
  cases props with
  | none => simp [validFeature] at h
  | some m =>
      cases hs : (getProp m "SourceFileDir").bind JVal.asStr with
      | none => simp [validFeature, hs] at h
      | some F =>
          cases geo with
          | none => simp [validFeature, hs] at h
          | some g =>
              cases hn : (getProp m "number_of_points").bind JVal.asU64 with
              | none => simp [validFeature, hs, hn] at h
              | some n => exact ⟨m, F, g, n, rfl, hs, rfl, hn⟩

theorem folderFeatures_snoc (fs : List Feature) (f : Feature) (F : String) :
    folderFeatures (fs ++ [f]) F
      = folderFeatures fs F ++ (if featureFolder f = some F then [f] else []) := by
  unfold folderFeatures
  rw [List.filter_append]
  congr 1
  by_cases h : featureFolder f = some F
  · simp [h]
  · simp [h]

theorem folderTotal_snoc_self (fs : List Feature) (f : Feature) (F : String)
    (h : featureFolder f = some F) :
    folderTotal (fs ++ [f]) F = folderTotal fs F + featureCount f := by
  unfold folderTotal
  rw [folderFeatures_snoc, if_pos h]
  simp

theorem folderTotal_snoc_other (fs : List Feature) (f : Feature) (F : String)
    (h : ¬ featureFolder f = some F) :
    folderTotal (fs ++ [f]) F = folderTotal fs F := by
  unfold folderTotal
  rw [folderFeatures_snoc, if_neg h]
  simp

theorem folderGeoms_snoc_self (fs : List Feature) (f : Feature) (F : String)
    (g : GeomValue) (h : featureFolder f = some F) (hg : f.geometry = some g) :
    folderGeoms (fs ++ [f]) F = folderGeoms fs F ++ [g] := by
  unfold folderGeoms
  rw [folderFeatures_snoc, if_pos h]
  simp [hg]

theorem folderGeoms_snoc_other (fs : List Feature) (f : Feature) (F : String)
    (h : ¬ featureFolder f = some F) :
    folderGeoms (fs ++ [f]) F = folderGeoms fs F := by
  unfold folderGeoms
  rw [folderFeatures_snoc, if_neg h]
  simp

theorem folderVals_snoc_self (fs : List Feature) (f : Feature) (F k : String)
    (h : featureFolder f = some F) :
    folderVals (fs ++ [f]) F k
      = dedupAppend (folderVals fs F k) (featureVals f k) := by
  unfold folderVals distinctConcat
  rw [folderFeatures_snoc, if_pos h, List.flatMap_append, dedupAppend_append]
  simp

theorem folderVals_snoc_other (fs : List Feature) (f : Feature) (F k : String)
    (h : ¬ featureFolder f = some F) :
    folderVals (fs ++ [f]) F k = folderVals fs F k := by
  unfold folderVals
  rw [folderFeatures_snoc, if_neg h]
  simp

theorem foldersOf_snoc (fs : List Feature) (f : Feature) (F0 : String)
    (h : featureFolder f = some F0) :
    foldersOf (fs ++ [f])
      = if F0 ∈ foldersOf fs then foldersOf fs else foldersOf fs ++ [F0] := by
  unfold foldersOf distinctConcat
  rw [List.filterMap_append, dedupAppend_append]
  have hsing : List.filterMap featureFolder [f] = [F0] := by simp [h]
  rw [hsing]
  show dedupAppend (dedupAppend [] (fs.filterMap featureFolder)) [F0] = _
  have : dedupAppend (dedupAppend [] (fs.filterMap featureFolder)) [F0]
      = if (dedupAppend [] (fs.filterMap featureFolder)).contains F0
        then dedupAppend [] (fs.filterMap featureFolder)
        else dedupAppend [] (fs.filterMap featureFolder) ++ [F0] := rfl
  rw [this]
  congr 1
  simp [List.contains]

theorem mem_foldersOf_iff (fs : List Feature) (F : String) :
    F ∈ foldersOf fs ↔ ∃ f ∈ fs, featureFolder f = some F := by
  unfold foldersOf distinctConcat
  rw [dedupAppend_mem]
  simp [List.mem_filterMap]

theorem folderFeatures_eq_nil_of_not_mem (fs : List Feature) (F : String)
    (h : ¬ F ∈ foldersOf fs) : folderFeatures fs F = [] := by
  rw [mem_foldersOf_iff] at h
  push_neg at h
  unfold folderFeatures
  rw [List.filter_eq_nil_iff]
  intro f hf
  simpa using h f hf

/-- Characterisation of the folder accumulation: after processing a valid
feature list, the folder table keys are the folders in first-appearance
order, and each folder's entry carries that folder's geometries in order,
the sum of its point counts, and the per-key distinct string values in
insertion order. -/
theorem buildAccs_spec (features : List Feature)
    (hv : ∀ f ∈ features, validFeature f) :
    (buildAccs features).map Prod.fst = foldersOf features
      ∧ ∀ F acc, findAcc (buildAccs features) F = some acc →
          acc.geoms = folderGeoms features F
            ∧ acc.totalPoints = folderTotal features F
            ∧ ∀ k, getVals acc.otherProps k
                = if folderVals features F k = [] then none
                  else some (folderVals features F k) := by
  induction features using List.reverseRecOn with
  | nil =>
      constructor
      · rfl
      · intro F acc hfind
        simp [buildAccs, findAcc] at hfind
  | append_singleton fs f ih =>
      have hvfs : ∀ f' ∈ fs, validFeature f' := fun f' hf' =>
        hv f' (List.mem_append.mpr (Or.inl hf'))
      have hvf : validFeature f := hv f (List.mem_append.mpr (Or.inr (List.mem_singleton.mpr rfl)))
      obtain ⟨ihfst, ihacc⟩ := ih hvfs
      obtain ⟨m, F0, g, n, hm, hF, hg, hn⟩ := validFeature_parts hvf
      have hff : featureFolder f = some F0 := by
        unfold featureFolder
        rw [hm]
        exact hF
      have hfc : featureCount f = n := by
        unfold featureCount
        rw [hm]
        show ((getProp m "number_of_points").bind JVal.asU64).getD 0 = n
        rw [hn]
        rfl
      have hfv : ∀ k, featureVals f k = keyVals (stringEntries m) k := by
        intro k
        unfold featureVals
        rw [hm]
      have hbuild : buildAccs (fs ++ [f])
          = updFolder (buildAccs fs) F0 g n (stringEntries m) := by
        unfold buildAccs
        rw [List.foldl_append, List.foldl_cons, List.foldl_nil]
        show buildStep (buildAccs fs) f = _
        unfold buildStep
        rw [hm]
        dsimp only
        rw [hF, hg, hn]
        rfl
      constructor
      · rw [hbuild, updFolder_map_fst, ihfst, foldersOf_snoc fs f F0 hff]
      · intro F acc hfind
        by_cases hFF : F = F0
        · subst hFF
          rw [hbuild, findAcc_updFolder_self] at hfind
          cases hprev : findAcc (buildAccs fs) F with
          | some accPrev =>
              rw [hprev] at hfind
              obtain ⟨hgeo, htot, hprops⟩ := ihacc F accPrev hprev
              have hacc : acc = ⟨accPrev.geoms ++ [g], accPrev.totalPoints + n,
                  addFolderProps accPrev.otherProps (stringEntries m)⟩ :=
                (Option.some.inj hfind).symm
              subst hacc
              refine ⟨?_, ?_, ?_⟩
              · rw [folderGeoms_snoc_self fs f F g hff hg, hgeo]
              · rw [folderTotal_snoc_self fs f F hff, htot, hfc]
              · intro k
                rw [getVals_addFolderProps, ← hfv k, hprops k,
                  folderVals_snoc_self fs f F k hff]
                by_cases hek : featureVals f k = []
                · rw [if_pos hek, hek]
                  show _ = if dedupAppend (folderVals fs F k) [] = [] then _
                    else some (dedupAppend (folderVals fs F k) [])
                  rfl
                · rw [if_neg hek]
                  by_cases hfvv : folderVals fs F k = []
                  · rw [if_pos hfvv, hfvv,
                      if_neg (dedupAppend_ne_nil_right [] hek)]
                    rfl
                  · rw [if_neg hfvv, Option.getD_some,
                      if_neg (dedupAppend_ne_nil_left _ hfvv)]
          | none =>
              rw [hprev] at hfind
              have hnotmem : ¬ F ∈ foldersOf fs := by
                rw [← ihfst, ← findAcc_isSome_iff, hprev]
                simp
              have hempty : folderFeatures fs F = [] :=
                folderFeatures_eq_nil_of_not_mem fs F hnotmem
              have hacc : acc = ⟨[g], n, addFolderProps [] (stringEntries m)⟩ :=
                (Option.some.inj hfind).symm
              subst hacc
              refine ⟨?_, ?_, ?_⟩
              · rw [folderGeoms_snoc_self fs f F g hff hg]
                unfold folderGeoms
                rw [hempty]
                rfl
              · rw [folderTotal_snoc_self fs f F hff, hfc]
                unfold folderTotal
                rw [hempty]
                simp
              · intro k
                rw [getVals_addFolderProps, ← hfv k,
                  folderVals_snoc_self fs f F k hff]
                have hfvnil : folderVals fs F k = [] := by
                  unfold folderVals
                  rw [hempty]
                  rfl
                rw [hfvnil]
                by_cases hek : featureVals f k = []
                · rw [if_pos hek, hek]
                  rfl
                · rw [if_neg hek, if_neg (dedupAppend_ne_nil_right [] hek)]
                  rfl
        · rw [hbuild, findAcc_updFolder_other _ _ _ _ _ _ hFF] at hfind
          obtain ⟨hgeo, htot, hprops⟩ := ihacc F acc hfind
          have hother : ¬ featureFolder f = some F := by
            rw [hff]
            intro hq
            exact hFF (Option.some.injEq _ _ |>.mp hq).symm
          refine ⟨?_, ?_, ?_⟩
          · rw [folderGeoms_snoc_other fs f F hother, hgeo]
          · rw [folderTotal_snoc_other fs f F hother, htot]
          · intro k
            rw [folderVals_snoc_other fs f F k hother]
            exact hprops k

theorem dedupAppend_nodup (vs : List String) :
    ∀ vals : List String, vals.Nodup → (dedupAppend vals vs).Nodup := by
  induction vs with
  | nil => intro vals h; exact h
  | cons v vs ih =>
      intro vals h
      rw [dedupAppend_cons]
      by_cases hc : vals.contains v
      · rw [if_pos hc]; exact ih vals h
      · rw [if_neg hc]
        refine ih _ ?_
        rw [← List.concat_eq_append]
        exact List.Nodup.concat (by simpa [List.contains] using hc) h

theorem foldersOf_nodup (features : List Feature) : (foldersOf features).Nodup :=
  dedupAppend_nodup _ [] List.nodup_nil

theorem find?_key_of_mem_nodup {β : Type} (l : List (String × β))
    (hn : (l.map Prod.fst).Nodup) (e : String × β) (he : e ∈ l) :
    l.find? (fun x => x.1 = e.1) = some e := by
  induction l with
  | nil => simp at he
  | cons a t ih =>
      rcases List.mem_cons.mp he with he | he
      · subst he
        exact List.find?_cons_of_pos _ (by simp)
      · have hne : ¬ a.1 = e.1 := by
          intro hq
          have : e.1 ∈ t.map Prod.fst := List.mem_map_of_mem _ he
          rw [List.map_cons, List.nodup_cons] at hn
          exact hn.1 (hq ▸ this)
        rw [List.find?_cons_of_neg _ (by simp [hne])]
        exact ih (by rw [List.map_cons, List.nodup_cons] at hn; exact hn.2) he

theorem findAcc_of_mem (accs : List (String × FolderAcc))
    (hn : (accs.map Prod.fst).Nodup) (e : String × FolderAcc) (he : e ∈ accs) :
    findAcc accs e.1 = some e.2 := by
  unfold findAcc
  rw [find?_key_of_mem_nodup accs hn e he]
  rfl

theorem mergeFoldAux (accs : List (String × FolderAcc)) :
    ∀ (init out : List Feature),
      (accs.foldlM
          (fun (o : List Feature) e =>
            (mergeGroup e.2.geoms).bind fun ring =>
              some (o ++ [createFeature e.1 e.2.totalPoints e.2.otherProps ring]))
          init = some out) →
      out.length = init.length + accs.length
        ∧ ∀ feat ∈ out, feat ∈ init ∨ ∃ e ∈ accs, ∃ ring,
            mergeGroup e.2.geoms = some ring
              ∧ feat = createFeature e.1 e.2.totalPoints e.2.otherProps ring := by
  induction accs with
  | nil =>
      intro init out h
      have : init = out := by simpa using h
      subst this
      exact ⟨by simp, fun feat hf => Or.inl hf⟩
  | cons e rest ih =>
      intro init out h
      rw [List.foldlM_cons] at h
      cases hstep : mergeGroup e.2.geoms with
      | none => rw [hstep] at h; simp at h
      | some ring =>
          rw [hstep] at h
          obtain ⟨hlen, hmem⟩ := ih
            (init ++ [createFeature e.1 e.2.totalPoints e.2.otherProps ring]) out h
          constructor
          · rw [hlen]
            simp [Nat.add_assoc, Nat.add_comm 1]
          · intro feat hf
            rcases hmem feat hf with hf' | ⟨e', he', ring', hr', hfeat⟩
            · rcases List.mem_append.mp hf' with hf' | hf'
              · exact Or.inl hf'
              · rw [List.mem_singleton] at hf'
                exact Or.inr ⟨e, List.mem_cons_self e rest, ring, hstep, hf'⟩
            · exact Or.inr ⟨e', List.mem_cons_of_mem _ he', ring', hr', hfeat⟩

theorem mergeGeometries_false_spec (features : List Feature) (out : List Feature)
    (hm : mergeGeometries false features = some out) :
    ∃ accs, groupFeaturesByFolder features = some accs
      ∧ out.length = accs.length
      ∧ ∀ feat ∈ out, ∃ e ∈ accs, ∃ ring, mergeGroup e.2.geoms = some ring
          ∧ feat = createFeature e.1 e.2.totalPoints e.2.otherProps ring := by
  unfold mergeGeometries at hm
  cases hacc : groupFeaturesByFolder features with
  | none => rw [hacc] at hm; simp at hm
  | some accs =>
      rw [hacc] at hm
      have h := mergeFoldAux accs [] out hm
      exact ⟨accs, rfl, by simpa using h.1, fun feat hf => by
        rcases h.2 feat hf with hf' | hf'
        · simp at hf'
        · exact hf'⟩

/-- C9 (amended): in folder mode the merge pass emits exactly one feature
per folder, with no filtering whatsoever of degenerate fold results: rings
with fewer than 4 points are emitted like any others (no drop, no logged
notice exists in the code). -/
theorem fold_results_always_emitted (features : List Feature) (out : List Feature)
    (hv : ∀ f ∈ features, validFeature f)
    (hm : mergeGeometries false features = some out) :
    out.length = (foldersOf features).length := by
  obtain ⟨accs, hacc, hlen, _⟩ := mergeGeometries_false_spec features out hm
  have hbuild : accs = buildAccs features := by
    have hq := groupFeatures_eq_buildAccs features hv
    rw [hacc] at hq
    exact Option.some.inj hq
  subst hbuild
  obtain ⟨hfst, _⟩ := buildAccs_spec features hv
  rw [hlen, ← hfst, List.length_map]

/-- C9 (witness): a single-folder collection yields exactly one output
feature. -/
theorem fold_results_always_emitted_witness :
    (mergeGeometries false
        [⟨some (GeomValue.polygon [[((0 : ℚ), (0 : ℚ))]]),
          some [("SourceFileDir", JVal.jstr "d"), ("number_of_points", JVal.ju64 10)]⟩,
          ⟨some (GeomValue.polygon [[((1 : ℚ), (1 : ℚ))]]),
            some [("SourceFileDir", JVal.jstr "d"), ("number_of_points", JVal.ju64 15)]⟩]).map
        List.length
      = some 1 := by
  cases hm : mergeGeometries false
      [⟨some (GeomValue.polygon [[((0 : ℚ), (0 : ℚ))]]),
        some [("SourceFileDir", JVal.jstr "d"), ("number_of_points", JVal.ju64 10)]⟩,
        ⟨some (GeomValue.polygon [[((1 : ℚ), (1 : ℚ))]]),
          some [("SourceFileDir", JVal.jstr "d"), ("number_of_points", JVal.ju64 15)]⟩] with
  | none => exact absurd hm (by decide)
  | some out =>
      have h := fold_results_always_emitted _ out (by decide) hm
      show some out.length = some 1
      rw [h]
      decide

/-- C9 (counterexample): a degenerate single-point feature folds to a ring
with 2 points (< 4), and the merge pass still emits it as an output feature
instead of dropping it. -/
theorem fold_results_always_emitted_counterexample :
    mergeGeometries false
        [⟨some (GeomValue.polygon [[((0 : ℚ), (0 : ℚ))]]),
          some [("SourceFileDir", JVal.jstr "d"), ("number_of_points", JVal.ju64 10)]⟩]
      = some [⟨some (GeomValue.polygon [[((0 : ℚ), (0 : ℚ)), ((0 : ℚ), (0 : ℚ))]]),
          some [("SourceFileDir", JVal.jstr "d"), ("number_of_points", JVal.ju64 10)]⟩]
      ∧ ([((0 : ℚ), (0 : ℚ)), ((0 : ℚ), (0 : ℚ))] : List Q2).length < 4 := by
  decide

/-! ### WKT record resolution -/

theorem findSome?_skip {α β : Type} (f : α → Option β) (pre rest : List α)
    (h : ∀ u ∈ pre, f u = none) :
    (pre ++ rest).findSome? f = rest.findSome? f := by
  induction pre with
  | nil => rfl
  | cons a t ih =>
      rw [List.cons_append, List.findSome?_cons, h a (List.mem_cons_self a t)]
      exact ih fun u hu => h u (List.mem_cons_of_mem _ hu)

/-- C6 (amended): if the declared-CRS flag is set and `v` is the first record
in the primary-then-extended chain with namespace `"LASF_Projection"` or
`"liblas"`, id 2111 or 2112, an ASCII payload, and a payload non-empty after
whitespace trimming, then `extract_crs` returns `Wkt` of the payload with
surrounding whitespace removed.  Trailing NUL bytes are NOT removed here —
`str::trim` does not strip NUL — they are only stripped later by the
geometry builder.  The records before `v` may carry arbitrary payloads: a
record skipped by the model (`wktOfVlr u = none` on matching metadata) has a
payload of ASCII whitespace bytes only, which the lossy decoding maps to the
same characters, so the program skips it too. -/
theorem resolve_wkt_first_match (h : LasHeader) (pre post : List Vlr) (v : Vlr)
    (hw : h.hasWktCrs = true)
    (hchain : h.vlrs ++ h.evlrs = pre ++ v :: post)
    (hpre : ∀ u ∈ pre, wktOfVlr u = none)
    (hid : v.userId = "LASF_Projection".data ∨ v.userId = "liblas".data)
    (hrid : v.recordId = 2111 ∨ v.recordId = 2112)
    (hascii : ∀ b ∈ v.data, b < 128)
    (hne : trimChars (utf8Chars v.data) ≠ []) :
    extractCrs h = some (Crs.wkt (trimChars (utf8Chars v.data))) := by
  unfold extractCrs
  rw [hw, if_pos rfl, hchain, findSome?_skip _ _ _ hpre, List.findSome?_cons]
  have hv : wktOfVlr v = some (Crs.wkt (trimChars (utf8Chars v.data))) := by
    unfold wktOfVlr
    rw [if_pos hid, if_pos hrid]
    simp [hne]
  rw [hv]

/-- C6 (witness): with the declared-CRS flag set and a single
`LASF_Projection`/2111 record with payload `"W"`, resolution returns
`Wkt "W"`. -/
theorem resolve_wkt_first_match_witness :
    extractCrs ⟨true, [⟨"LASF_Projection".data, 2111, [87]⟩], []⟩
      = some (Crs.wkt ['W']) := by
  have h := resolve_wkt_first_match ⟨true, [⟨"LASF_Projection".data, 2111, [87]⟩], []⟩
    [] [⟨"LASF_Projection".data, 2111, [87]⟩].tail ⟨"LASF_Projection".data, 2111, [87]⟩
    rfl (by decide) (by intro u hu; simp at hu) (by decide) (by decide) (by decide)
    (by decide)
  rw [h]
  decide

/-- C6 (counterexample): a declared WKT record with payload bytes
`[87, 0]` (the text `"W"` followed by a NUL byte) resolves to
`Wkt "W\x00"`, whereas the claim requires trailing NUL bytes to have been
removed, i.e. `Wkt "W"` (`specWktText`). -/
theorem resolve_wkt_counterexample :
    extractCrs ⟨true, [⟨"LASF_Projection".data, 2111, [87, 0]⟩], []⟩
        = some (Crs.wkt ['W', Char.ofNat 0])
      ∧ ['W', Char.ofNat 0] ≠ specWktText [87, 0] := by
  decide

/-! ### Convex hull geometry (model of the external hull primitive) -/

theorem segB_iff (p a b : Q2) : segB p a b = true ↔ p ∈ segment ℚ a b := by
  unfold segB
  by_cases hab : a = b
  · subst hab
    rw [if_pos rfl, segment_same]
    simp
  · rw [if_neg hab, segment_eq_image']
    by_cases h1 : a.1 = b.1
    · have h2 : ¬ a.2 = b.2 := by
        intro h2
        exact hab (Prod.ext h1 h2)
      have hd : b.2 - a.2 ≠ 0 := fun hq => h2 (by linarith [sub_eq_zero.mp hq])
      rw [if_neg (by simpa using h1)]
      simp only [Bool.and_eq_true, decide_eq_true_eq]
      constructor
      · rintro ⟨⟨h0, hle⟩, heq⟩
        exact ⟨(p.2 - a.2) / (b.2 - a.2), ⟨h0, hle⟩, heq.symm⟩
      · rintro ⟨θ, ⟨h0, hle⟩, heq⟩
        have hcoord : p.2 = a.2 + θ * (b.2 - a.2) := by
          rw [← heq]
          simp [Prod.snd_add, Prod.smul_snd, smul_eq_mul]
        have hθ : (p.2 - a.2) / (b.2 - a.2) = θ := by
          rw [hcoord]
          field_simp
        rw [hθ]
        exact ⟨⟨h0, hle⟩, heq.symm⟩
    · have hd : b.1 - a.1 ≠ 0 := fun hq => h1 (by linarith [sub_eq_zero.mp hq])
      rw [if_pos (by simpa using h1)]
      simp only [Bool.and_eq_true, decide_eq_true_eq]
      constructor
      · rintro ⟨⟨h0, hle⟩, heq⟩
        exact ⟨(p.1 - a.1) / (b.1 - a.1), ⟨h0, hle⟩, heq.symm⟩
      · rintro ⟨θ, ⟨h0, hle⟩, heq⟩
        have hcoord : p.1 = a.1 + θ * (b.1 - a.1) := by
          rw [← heq]
          simp [Prod.fst_add, Prod.smul_fst, smul_eq_mul]
        have hθ : (p.1 - a.1) / (b.1 - a.1) = θ := by
          rw [hcoord]
          field_simp
        rw [hθ]
        exact ⟨⟨h0, hle⟩, heq.symm⟩

theorem mem_triple_iff (a b c p : Q2) :
    p ∈ convexHull ℚ ({a, b, c} : Set Q2)
      ↔ ∃ z ∈ segment ℚ b c, p ∈ segment ℚ a z := by
  rw [← convexJoin_singleton_segment, mem_convexJoin]
  simp

theorem combo_mem_triple (a b c : Q2) (w1 w2 w3 : ℚ) (h1 : 0 ≤ w1) (h2 : 0 ≤ w2)
    (h3 : 0 ≤ w3) (hsum : w1 + w2 + w3 = 1) :
    w1 • a + w2 • b + w3 • c ∈ convexHull ℚ ({a, b, c} : Set Q2) := by
  rw [mem_triple_iff]
  by_cases h23 : w2 + w3 = 0
  · have hw2 : w2 = 0 := le_antisymm (by linarith) h2
    have hw3 : w3 = 0 := le_antisymm (by linarith) h3
    have hw1 : w1 = 1 := by linarith
    subst hw2; subst hw3; subst hw1
    refine ⟨b, left_mem_segment ℚ b c, ?_⟩
    simp only [one_smul, zero_smul, add_zero]
    exact left_mem_segment ℚ a b
  · have hpos : 0 < w2 + w3 := lt_of_le_of_ne (by linarith) (Ne.symm h23)
    refine ⟨(w2 / (w2 + w3)) • b + (w3 / (w2 + w3)) • c,
      ⟨w2 / (w2 + w3), w3 / (w2 + w3),
        div_nonneg h2 hpos.le, div_nonneg h3 hpos.le, by field_simp, rfl⟩,
      w1, w2 + w3, h1, hpos.le, by linarith, ?_⟩
    rw [smul_add, smul_smul, smul_smul, mul_div_cancel₀ _ h23, mul_div_cancel₀ _ h23,
      add_assoc]

theorem exists_triple_weights (a b c p : Q2)
    (hp : p ∈ convexHull ℚ ({a, b, c} : Set Q2)) :
    ∃ w1 w2 w3 : ℚ, 0 ≤ w1 ∧ 0 ≤ w2 ∧ 0 ≤ w3 ∧ w1 + w2 + w3 = 1
      ∧ p = w1 • a + w2 • b + w3 • c := by
  rw [mem_triple_iff] at hp
  obtain ⟨z, ⟨s1, s2, hs1, hs2, hs, hzeq⟩, t1, t2, ht1, ht2, ht, hpeq⟩ := hp
  refine ⟨t1, t2 * s1, t2 * s2, ht1, mul_nonneg ht2 hs1, mul_nonneg ht2 hs2, ?_, ?_⟩
  · have hq : t1 + t2 * s1 + t2 * s2 = t1 + t2 * (s1 + s2) := by ring
    rw [hq, hs, mul_one, ht]
  · rw [← hpeq, ← hzeq, smul_add, smul_smul, smul_smul, add_assoc]

theorem hull_insert_of_mem {x : Q2} {s : Set Q2} (hx : x ∈ convexHull ℚ s) :
    convexHull ℚ (insert x s) = convexHull ℚ s := by
  apply Set.Subset.antisymm
  · exact convexHull_min (Set.insert_subset hx (subset_convexHull ℚ s)) (convex_convexHull ℚ s)
  · exact convexHull_mono (Set.subset_insert x s)

theorem mem_seg_param {x y z : Q2} (t : ℚ) (h0 : 0 ≤ t) (h1 : t ≤ 1)
    (heq : z = x + t • (y - x)) : z ∈ segment ℚ x y := by
  rw [segment_eq_image']
  exact ⟨t, ⟨h0, h1⟩, heq.symm⟩

theorem collinear_param {a b c : Q2} (hab : ¬ a = b) (hd : cross (b - a) (c - a) = 0) :
    ∃ t : ℚ, c = a + t • (b - a) := by
  by_cases h1 : (b - a).1 = 0
  · have h2 : (b - a).2 ≠ 0 := by
      intro h2
      apply hab
      have : b - a = 0 := Prod.ext h1 h2
      have := sub_eq_zero.mp this
      exact this.symm
    refine ⟨(c - a).2 / (b - a).2, ?_⟩
    have hc1 : (c - a).1 = 0 := by
      unfold cross at hd
      rw [h1] at hd
      simp only [zero_mul, zero_sub, neg_eq_zero, mul_eq_zero] at hd
      rcases hd with hd | hd
      · exact absurd hd h2
      · exact hd
    apply Prod.ext
    · show c.1 = a.1 + (c - a).2 / (b - a).2 * (b - a).1
      rw [h1, mul_zero, add_zero]
      have := hc1
      simp only [Prod.fst_sub] at this
      linarith
    · show c.2 = a.2 + (c - a).2 / (b - a).2 * (b - a).2
      rw [div_mul_cancel₀ _ h2]
      simp only [Prod.snd_sub]
      ring
  · refine ⟨(c - a).1 / (b - a).1, ?_⟩
    have hc2 : (c - a).2 * (b - a).1 = (b - a).2 * (c - a).1 := by
      unfold cross at hd
      linarith
    apply Prod.ext
    · show c.1 = a.1 + (c - a).1 / (b - a).1 * (b - a).1
      rw [div_mul_cancel₀ _ h1]
      simp only [Prod.fst_sub]
      ring
    · show c.2 = a.2 + (c - a).1 / (b - a).1 * (b - a).2
      simp only [Prod.fst_sub, Prod.snd_sub]
      have hq : (c - a).2 = (c - a).1 / (b - a).1 * (b - a).2 := by
        rw [div_mul_eq_mul_div, eq_div_iff h1]
        linear_combination hc2
      simp only [Prod.fst_sub, Prod.snd_sub] at hq
      linarith

theorem cross_combo_right (s t : ℚ) (u w : Q2) :
    cross (s • u + t • w) w = s * cross u w := by
  unfold cross
  simp only [Prod.fst_add, Prod.snd_add, Prod.smul_fst, Prod.smul_snd, smul_eq_mul]
  ring

theorem cross_combo_left (s t : ℚ) (u w : Q2) :
    cross u (s • u + t • w) = t * cross u w := by
  unfold cross
  simp only [Prod.fst_add, Prod.snd_add, Prod.smul_fst, Prod.smul_snd, smul_eq_mul]
  ring

theorem affine_combo_eq (a b c : Q2) (w2 w3 : ℚ) :
    a + w2 • (b - a) + w3 • (c - a) = (1 - w2 - w3) • a + w2 • b + w3 • c := by
  module

theorem triMemB_def (p a b c : Q2) :
    triMemB p a b c =
      if cross (b - a) (c - a) = 0 then segB p a b || segB p b c || segB p a c
      else
        decide (0 ≤ cross (p - a) (c - a) / cross (b - a) (c - a))
          && decide (0 ≤ cross (b - a) (p - a) / cross (b - a) (c - a))
          && decide (cross (p - a) (c - a) / cross (b - a) (c - a)
              + cross (b - a) (p - a) / cross (b - a) (c - a) ≤ 1)
          && decide (p = a + (cross (p - a) (c - a) / cross (b - a) (c - a)) • (b - a)
              + (cross (b - a) (p - a) / cross (b - a) (c - a)) • (c - a)) := rfl

theorem triMemB_iff (p a b c : Q2) :
    triMemB p a b c = true ↔ p ∈ convexHull ℚ ({a, b, c} : Set Q2) := by
  rw [triMemB_def]
  by_cases hd : cross (b - a) (c - a) = 0
  · rw [if_pos hd]
    simp only [Bool.or_eq_true, segB_iff]
    constructor
    · rintro ((h | h) | h)
      · refine convexHull_mono (s := {a, b}) ?_ (by rw [convexHull_pair]; exact h)
        intro x hx
        simp only [Set.mem_insert_iff, Set.mem_singleton_iff] at hx ⊢
        tauto
      · refine convexHull_mono (s := {b, c}) ?_ (by rw [convexHull_pair]; exact h)
        intro x hx
        simp only [Set.mem_insert_iff, Set.mem_singleton_iff] at hx ⊢
        tauto
      · refine convexHull_mono (s := {a, c}) ?_ (by rw [convexHull_pair]; exact h)
        intro x hx
        simp only [Set.mem_insert_iff, Set.mem_singleton_iff] at hx ⊢
        tauto
    · intro hp
      by_cases hab : a = b
      · subst hab
        right
        have hset : ({a, a, c} : Set Q2) = {a, c} := by
          simp [Set.insert_comm]
        rw [hset, convexHull_pair] at hp
        exact hp
      · obtain ⟨t, hc⟩ := collinear_param hab hd
        rcases le_or_lt 0 t with h0 | h0
        · rcases le_or_lt t 1 with h1 | h1
          · left; left
            have hcseg : c ∈ segment ℚ a b := mem_seg_param t h0 h1 hc
            have hset : ({a, b, c} : Set Q2) = insert c {a, b} := by
              ext x
              simp only [Set.mem_insert_iff, Set.mem_singleton_iff]
              tauto
            rw [hset, hull_insert_of_mem (by rw [convexHull_pair]; exact hcseg),
              convexHull_pair] at hp
            exact hp
          · right
            have ht0 : (0 : ℚ) < t := lt_trans zero_lt_one h1
            have hbseg : b ∈ segment ℚ a c := by
              refine mem_seg_param (1 / t) (by positivity) ?_ ?_
              · rw [div_le_one ht0]
                exact h1.le
              · have hca : c - a = t • (b - a) := by
                  rw [hc]; abel
                rw [hca, smul_smul, one_div, inv_mul_cancel₀ (ne_of_gt ht0), one_smul]
                abel
            have hset : ({a, b, c} : Set Q2) = insert b {a, c} := by
              ext x
              simp only [Set.mem_insert_iff, Set.mem_singleton_iff]
              tauto
            rw [hset, hull_insert_of_mem (by rw [convexHull_pair]; exact hbseg),
              convexHull_pair] at hp
            exact hp
        · left; right
          have ht1 : (0 : ℚ) < 1 - t := by linarith
          have haseg : a ∈ segment ℚ b c := by
            refine mem_seg_param (1 / (1 - t)) (by positivity) ?_ ?_
            · rw [div_le_one ht1]
              linarith
            · have hcb : c - b = (t - 1) • (b - a) := by
                rw [hc]
                simp only [sub_smul, one_smul]
                abel
              rw [hcb, smul_smul]
              have hq : 1 / (1 - t) * (t - 1) = -1 := by
                field_simp
              rw [hq, neg_one_smul]
              abel
          rw [hull_insert_of_mem (by rw [convexHull_pair]; exact haseg),
            convexHull_pair] at hp
          exact hp
  · rw [if_neg hd]
    simp only [Bool.and_eq_true, decide_eq_true_eq]
    constructor
    · rintro ⟨⟨⟨h2, h3⟩, hsum⟩, heq⟩
      rw [affine_combo_eq] at heq
      rw [heq]
      exact combo_mem_triple a b c _ _ _ (by linarith) h2 h3 (by ring)
    · intro hp
      obtain ⟨w1, v2, v3, hw1, hv2, hv3, hsum, hpeq⟩ := exists_triple_weights a b c p hp
      have hpa : p - a = v2 • (b - a) + v3 • (c - a) := by
        rw [hpeq]
        have hq : w1 = 1 - v2 - v3 := by linarith
        rw [hq]
        module
      have he2 : cross (p - a) (c - a) / cross (b - a) (c - a) = v2 := by
        rw [hpa, cross_combo_right, mul_div_cancel_right₀ _ hd]
      have he3 : cross (b - a) (p - a) / cross (b - a) (c - a) = v3 := by
        rw [hpa, cross_combo_left, mul_div_cancel_right₀ _ hd]
      rw [he2, he3]
      refine ⟨⟨⟨hv2, hv3⟩, by linarith⟩, ?_⟩
      rw [add_assoc, ← hpa]
      abel

theorem card_le_three (t : Finset Q2)
    (hai : AffineIndependent ℚ ((↑) : t → Q2)) : t.card ≤ 3 := by
  have h := hai.card_le_finrank_succ
  rw [Fintype.card_coe] at h
  have h2 : Module.finrank ℚ (vectorSpan ℚ (Set.range ((↑) : t → Q2)))
      ≤ Module.finrank ℚ Q2 := Submodule.finrank_le _
  have h3 : Module.finrank ℚ Q2 = 2 := by
    rw [Module.finrank_prod, Module.finrank_self]
  omega

theorem mem_hull_triple (l : List Q2) (p : Q2)
    (hp : p ∈ convexHull ℚ {x : Q2 | x ∈ l}) :
    ∃ a ∈ l, ∃ b ∈ l, ∃ c ∈ l, p ∈ convexHull ℚ ({a, b, c} : Set Q2) := by
  rw [convexHull_eq_union] at hp
  simp only [Set.mem_iUnion] at hp
  obtain ⟨t, hts, hai, hpt⟩ := hp
  have hmem : ∀ x ∈ t, x ∈ l := fun x hx => hts hx
  have hcard := card_le_three t hai
  rcases hc : t.card with _ | _ | _ | _ | n
  · rw [Finset.card_eq_zero] at hc
    subst hc
    simp [convexHull_empty] at hpt
  · rw [Finset.card_eq_one] at hc
    obtain ⟨a, rfl⟩ := hc
    have ha : a ∈ l := hmem a (Finset.mem_singleton_self a)
    refine ⟨a, ha, a, ha, a, ha, ?_⟩
    have hset : ({a, a, a} : Set Q2) = {a} := by simp
    rw [hset]
    simpa using hpt
  · rw [Finset.card_eq_two] at hc
    obtain ⟨a, b, hab, rfl⟩ := hc
    have ha : a ∈ l := hmem a (by simp)
    have hb : b ∈ l := hmem b (by simp)
    refine ⟨a, ha, a, ha, b, hb, ?_⟩
    have hset : ({a, a, b} : Set Q2) = {a, b} := by simp
    rw [hset]
    simpa using hpt
  · rw [Finset.card_eq_three] at hc
    obtain ⟨a, b, c, hab, hac, hbc, rfl⟩ := hc
    have ha : a ∈ l := hmem a (by simp)
    have hb : b ∈ l := hmem b (by simp)
    have hcl : c ∈ l := hmem c (by simp)
    refine ⟨a, ha, b, hb, c, hcl, ?_⟩
    simpa using hpt
  · omega

theorem inHullB_iff (p : Q2) (l : List Q2) :
    inHullB p l = true ↔ p ∈ convexHull ℚ {x : Q2 | x ∈ l} := by
  unfold inHullB
  simp only [List.any_eq_true]
  constructor
  · rintro ⟨a, ha, b, hb, c, hc, htri⟩
    refine convexHull_mono (s := {a, b, c}) ?_ ((triMemB_iff p a b c).mp htri)
    intro x hx
    simp only [Set.mem_insert_iff, Set.mem_singleton_iff] at hx
    rcases hx with rfl | rfl | rfl <;> exact ‹x ∈ l›
  · intro hp
    obtain ⟨a, ha, b, hb, c, hc, h⟩ := mem_hull_triple l p hp
    exact ⟨a, ha, b, hb, c, hc, (triMemB_iff p a b c).mpr h⟩

theorem hull_subst_finset (S : Finset Q2) (v : Q2)
    (h : v ∈ convexHull ℚ (convexHull ℚ (↑S : Set Q2) \ {v})) :
    v ∈ convexHull ℚ ((↑S : Set Q2) \ {v}) := by
  classical
  by_cases hvS : v ∈ S
  · rw [convexHull_eq] at h
    obtain ⟨ι, t, tw, z, htw0, htw1, hz, hcm⟩ := h
    rw [Finset.centerMass_eq_of_sum_1 _ _ htw1] at hcm
    have key : ∀ i : ι, ∃ wf : Q2 → ℚ, i ∈ t →
        (∀ s ∈ S, 0 ≤ wf s) ∧ (∑ s ∈ S, wf s) = 1 ∧ (∑ s ∈ S, wf s • s) = z i := by
      intro i
      by_cases hi : i ∈ t
      · have hzi : z i ∈ convexHull ℚ (↑S : Set Q2) := (hz i hi).1
        rw [Finset.convexHull_eq] at hzi
        obtain ⟨wf, h0, h1, h2⟩ := hzi
        rw [Finset.centerMass_eq_of_sum_1 _ _ h1] at h2
        simp only [id_eq] at h2
        exact ⟨wf, fun _ => ⟨h0, h1, h2⟩⟩
      · exact ⟨fun _ => 0, fun hmem => absurd hmem hi⟩
    choose wf hwf using key
    set W : Q2 → ℚ := fun s => ∑ i ∈ t, tw i * wf i s with hW
    have hW0 : ∀ s ∈ S, 0 ≤ W s := fun s hs =>
      Finset.sum_nonneg fun i hi => mul_nonneg (htw0 i hi) ((hwf i hi).1 s hs)
    have hWsum : (∑ s ∈ S, W s) = 1 := by
      simp only [hW]
      rw [Finset.sum_comm]
      have hrow : ∀ i ∈ t, (∑ s ∈ S, tw i * wf i s) = tw i := fun i hi => by
        rw [← Finset.mul_sum, (hwf i hi).2.1, mul_one]
      rw [Finset.sum_congr rfl hrow, htw1]
    have hWv : (∑ s ∈ S, W s • s) = v := by
      simp only [hW]
      calc (∑ s ∈ S, (∑ i ∈ t, tw i * wf i s) • s)
          = ∑ s ∈ S, ∑ i ∈ t, (tw i * wf i s) • s :=
            Finset.sum_congr rfl fun s _ => Finset.sum_smul
        _ = ∑ i ∈ t, ∑ s ∈ S, (tw i * wf i s) • s := Finset.sum_comm
        _ = ∑ i ∈ t, tw i • z i := Finset.sum_congr rfl fun i hi => by
            rw [← (hwf i hi).2.2, Finset.smul_sum]
            exact Finset.sum_congr rfl fun s _ => mul_smul _ _ _
        _ = v := hcm
    have hWvle : W v ≤ 1 := by
      rw [← hWsum]
      exact Finset.single_le_sum hW0 hvS
    have herase_sum : (∑ s ∈ S.erase v, W s) = 1 - W v := by
      have hq := Finset.add_sum_erase S W hvS
      rw [hWsum] at hq
      linarith
    have herase_v : (∑ s ∈ S.erase v, W s • s) = v - W v • v := by
      have hq := Finset.add_sum_erase S (fun s => W s • s) hvS
      rw [hWv] at hq
      have hq2 : W v • v + (∑ s ∈ S.erase v, W s • s) = v := hq
      rw [eq_sub_iff_add_eq, add_comm]
      exact hq2
    by_cases hW1 : W v = 1
    · exfalso
      have hzero : ∀ s ∈ S.erase v, W s = 0 := by
        have hs0 : (∑ s ∈ S.erase v, W s) = 0 := by rw [herase_sum, hW1]; ring
        exact (Finset.sum_eq_zero_iff_of_nonneg
          fun s hs => hW0 s (Finset.mem_of_mem_erase hs)).mp hs0
      obtain ⟨i0, hi0, hti0⟩ : ∃ i ∈ t, 0 < tw i := by
        by_contra hc
        push_neg at hc
        have : (∑ i ∈ t, tw i) ≤ 0 := Finset.sum_nonpos fun i hi => hc i hi
        linarith
      have hwfle : ∀ i ∈ t, wf i v ≤ 1 := by
        intro i hi
        have hle := Finset.single_le_sum ((hwf i hi).1) hvS
        rw [(hwf i hi).2.1] at hle
        exact hle
      have hwv1 : ∀ i ∈ t, tw i * (1 - wf i v) = 0 := by
        apply (Finset.sum_eq_zero_iff_of_nonneg
          fun i hi => mul_nonneg (htw0 i hi) (by linarith [hwfle i hi])).mp
        have hexp : (∑ i ∈ t, tw i * (1 - wf i v))
            = (∑ i ∈ t, tw i) - ∑ i ∈ t, tw i * wf i v := by
          rw [← Finset.sum_sub_distrib]
          exact Finset.sum_congr rfl fun i _ => by ring
        have hWveq : W v = ∑ i ∈ t, tw i * wf i v := rfl
        rw [hexp, htw1, ← hWveq, hW1]
        ring
      have hwfv : wf i0 v = 1 := by
        rcases mul_eq_zero.mp (hwv1 i0 hi0) with hq | hq
        · exact absurd hq (ne_of_gt hti0)
        · linarith
      have hz0 : ∀ s ∈ S.erase v, wf i0 s = 0 := by
        have hsum0 : (∑ s ∈ S.erase v, wf i0 s) = 0 := by
          have hq := Finset.add_sum_erase S (wf i0) hvS
          rw [(hwf i0 hi0).2.1, hwfv] at hq
          linarith
        exact (Finset.sum_eq_zero_iff_of_nonneg
          fun s hs => (hwf i0 hi0).1 s (Finset.mem_of_mem_erase hs)).mp hsum0
      have hzv : z i0 = v := by
        have h2 := (hwf i0 hi0).2.2
        rw [← Finset.add_sum_erase S (fun s => wf i0 s • s) hvS, hwfv, one_smul] at h2
        have hrest : (∑ s ∈ S.erase v, wf i0 s • s) = 0 :=
          Finset.sum_eq_zero fun s hs => by rw [hz0 s hs, zero_smul]
        rw [hrest, add_zero] at h2
        exact h2.symm
      exact (hz i0 hi0).2 (by rw [hzv]; exact Set.mem_singleton v)
    · have hlt : W v < 1 := lt_of_le_of_ne hWvle hW1
      have hpos : 0 < ∑ s ∈ S.erase v, W s := by
        rw [herase_sum]
        linarith
      have hzmem : ∀ s ∈ S.erase v, id s ∈ (↑S : Set Q2) \ {v} := by
        intro s hs
        have hq := Finset.mem_erase.mp hs
        exact ⟨hq.2, hq.1⟩
      have hmem := Finset.centerMass_mem_convexHull (S.erase v)
        (fun s hs => hW0 s (Finset.mem_of_mem_erase hs)) hpos hzmem
      have hcm2 : (S.erase v).centerMass W id = v := by
        unfold Finset.centerMass
        simp only [id_eq]
        rw [herase_sum, herase_v]
        have hq : v - W v • v = (1 - W v) • v := by
          rw [sub_smul, one_smul]
        rw [hq, smul_smul, inv_mul_cancel₀ (by linarith : (1 : ℚ) - W v ≠ 0), one_smul]
      rwa [hcm2] at hmem
  · have hset : (↑S : Set Q2) \ {v} = ↑S :=
      Set.diff_singleton_eq_self (by simpa using hvS)
    rw [hset]
    have h2 : v ∈ convexHull ℚ (convexHull ℚ (↑S : Set Q2)) :=
      convexHull_mono Set.diff_subset h
    rwa [Convex.convexHull_eq (convex_convexHull ℚ _)] at h2

theorem hull_extreme_finset :
    ∀ S : Finset Q2, convexHull ℚ (↑S : Set Q2)
      ⊆ convexHull ℚ {v : Q2 | v ∈ (↑S : Set Q2)
          ∧ v ∉ convexHull ℚ ((↑S : Set Q2) \ {v})} := by
  intro S
  induction S using Finset.strongInduction with
  | _ S ih =>
    apply convexHull_min ?_ (convex_convexHull ℚ _)
    intro s hs
    have hsS : s ∈ S := hs
    by_cases hse : s ∈ convexHull ℚ ((↑S : Set Q2) \ {s})
    · have hT : (↑(S.erase s) : Set Q2) = (↑S : Set Q2) \ {s} := Finset.coe_erase s S
      have ihT := ih (S.erase s) (Finset.erase_ssubset hsS)
      have hhull : convexHull ℚ (↑S : Set Q2) = convexHull ℚ (↑(S.erase s) : Set Q2) := by
        rw [hT]
        have hins : (↑S : Set Q2) = insert s ((↑S : Set Q2) \ {s}) := by
          rw [Set.insert_diff_singleton, Set.insert_eq_self.mpr hs]
        conv_lhs => rw [hins]
        exact hull_insert_of_mem hse
      have hEsub : {v : Q2 | v ∈ (↑(S.erase s) : Set Q2)
            ∧ v ∉ convexHull ℚ ((↑(S.erase s) : Set Q2) \ {v})}
          ⊆ {v : Q2 | v ∈ (↑S : Set Q2) ∧ v ∉ convexHull ℚ ((↑S : Set Q2) \ {v})} := by
        rintro v ⟨hv1, hv2⟩
        have hvS : v ∈ (↑S : Set Q2) := by
          rw [hT] at hv1
          exact hv1.1
        refine ⟨hvS, fun hvh => hv2 ?_⟩
        apply hull_subst_finset (S.erase s) v
        refine convexHull_mono ?_ hvh
        rintro x ⟨hx1, hx2⟩
        refine ⟨?_, hx2⟩
        rw [← hhull]
        exact subset_convexHull ℚ _ hx1
      have hs2 : s ∈ convexHull ℚ (↑(S.erase s) : Set Q2) := by
        rw [← hhull]
        exact subset_convexHull ℚ _ hs
      exact convexHull_mono hEsub (ihT hs2)
    · exact subset_convexHull ℚ _ ⟨hs, hse⟩

theorem extreme_pt_mono (S₁ S₂ : Finset Q2)
    (h : convexHull ℚ (↑S₁ : Set Q2) = convexHull ℚ (↑S₂ : Set Q2)) (v : Q2)
    (hv : v ∈ S₁) (hnv : v ∉ convexHull ℚ ((↑S₁ : Set Q2) \ {v})) :
    v ∈ S₂ ∧ v ∉ convexHull ℚ ((↑S₂ : Set Q2) \ {v}) := by
  have hsub : (↑S₂ : Set Q2) \ {v} ⊆ convexHull ℚ (↑S₁ : Set Q2) \ {v} := by
    rintro x ⟨hx1, hx2⟩
    refine ⟨?_, hx2⟩
    rw [h]
    exact subset_convexHull ℚ _ hx1
  have hM : v ∈ convexHull ℚ ((↑S₂ : Set Q2) \ {v})
      → v ∈ convexHull ℚ ((↑S₁ : Set Q2) \ {v}) :=
    fun hx => hull_subst_finset S₁ v (convexHull_mono hsub hx)
  constructor
  · by_contra hv2
    apply hnv
    apply hM
    have hset : ((↑S₂ : Set Q2) \ {v}) = ↑S₂ :=
      Set.diff_singleton_eq_self (by simpa using hv2)
    rw [hset, ← h]
    exact subset_convexHull ℚ _ hv
  · exact fun hx => hnv (hM hx)

theorem extremeList_mem (l : List Q2) (v : Q2) :
    v ∈ extremeList l ↔ v ∈ l ∧ v ∉ convexHull ℚ ({x : Q2 | x ∈ l} \ {v}) := by
  unfold extremeList
  rw [List.mem_filter]
  have hset : {x : Q2 | x ∈ l.dedup.erase v} = {x : Q2 | x ∈ l} \ {v} := by
    ext x
    simp only [Set.mem_setOf_eq, Set.mem_diff, Set.mem_singleton_iff,
      (l.nodup_dedup).mem_erase_iff, List.mem_dedup]
    tauto
  constructor
  · rintro ⟨hv1, hv2⟩
    refine ⟨List.mem_dedup.mp hv1, fun hh => ?_⟩
    simp only [decide_eq_true_eq] at hv2
    exact hv2 ((inHullB_iff v (l.dedup.erase v)).mpr (hset ▸ hh))
  · rintro ⟨hv1, hv2⟩
    refine ⟨List.mem_dedup.mpr hv1, ?_⟩
    simp only [decide_eq_true_eq]
    intro hh
    exact hv2 (hset ▸ (inHullB_iff v (l.dedup.erase v)).mp hh)

theorem extremeList_nodup (l : List Q2) : (extremeList l).Nodup :=
  (l.nodup_dedup).filter _

theorem mem_hullRing (l : List Q2) (x : Q2) : x ∈ hullRing l ↔ x ∈ extremeList l := by
  unfold hullRing
  cases hs : sortPoints (extremeList l) with
  | nil =>
      have hperm : List.Perm (sortPoints (extremeList l)) (extremeList l) :=
        (extremeList l).perm_insertionSort qle
      rw [hs] at hperm
      rw [← hperm.symm.mem_iff]
  | cons y ys =>
      have hperm : List.Perm (sortPoints (extremeList l)) (extremeList l) :=
        (extremeList l).perm_insertionSort qle
      rw [hs] at hperm
      rw [← hperm.mem_iff]
      simp only [List.mem_cons, List.mem_append, List.mem_singleton]
      tauto

theorem hullRing_congr (l m : List Q2)
    (h : ∀ v, v ∈ extremeList l ↔ v ∈ extremeList m) : hullRing l = hullRing m := by
  have hperm : List.Perm (extremeList l) (extremeList m) :=
    (List.perm_ext_iff_of_nodup (extremeList_nodup l) (extremeList_nodup m)).mpr h
  have hsort : sortPoints (extremeList l) = sortPoints (extremeList m) :=
    List.eq_of_perm_of_sorted
      (((extremeList l).perm_insertionSort qle).trans
        (hperm.trans ((extremeList m).perm_insertionSort qle).symm))
      (List.sorted_insertionSort qle (extremeList l))
      (List.sorted_insertionSort qle (extremeList m))
  unfold hullRing sortPoints
  rw [show (extremeList l).insertionSort qle = (extremeList m).insertionSort qle from hsort]

theorem extremeList_congr (l m : List Q2)
    (h : convexHull ℚ {x : Q2 | x ∈ l} = convexHull ℚ {x : Q2 | x ∈ m}) :
    ∀ v, v ∈ extremeList l ↔ v ∈ extremeList m := by
  intro v
  rw [extremeList_mem, extremeList_mem]
  have hc1 : {x : Q2 | x ∈ l} = (↑l.toFinset : Set Q2) := (List.coe_toFinset l).symm
  have hc2 : {x : Q2 | x ∈ m} = (↑m.toFinset : Set Q2) := (List.coe_toFinset m).symm
  rw [hc1, hc2] at h ⊢
  constructor
  · rintro ⟨hv1, hv2⟩
    have hq := extreme_pt_mono l.toFinset m.toFinset h v (by simpa using hv1) hv2
    exact ⟨by simpa using hq.1, hq.2⟩
  · rintro ⟨hv1, hv2⟩
    have hq := extreme_pt_mono m.toFinset l.toFinset h.symm v (by simpa using hv1) hv2
    exact ⟨by simpa using hq.1, hq.2⟩

theorem hull_extremeList (l : List Q2) :
    convexHull ℚ {x : Q2 | x ∈ extremeList l} = convexHull ℚ {x : Q2 | x ∈ l} := by
  apply Set.Subset.antisymm
  · apply convexHull_mono
    intro x hx
    exact ((extremeList_mem l x).mp hx).1
  · have hmink := hull_extreme_finset l.toFinset
    rw [List.coe_toFinset] at hmink
    refine Set.Subset.trans hmink (convexHull_mono ?_)
    rintro v ⟨hv1, hv2⟩
    rw [Set.mem_setOf_eq, extremeList_mem]
    exact ⟨hv1, hv2⟩

theorem mem_list_append_set (l m : List Q2) :
    {x : Q2 | x ∈ l ++ m} = {x : Q2 | x ∈ l} ∪ {x : Q2 | x ∈ m} := by
  ext x
  simp [List.mem_append]

theorem hullRing_set (l : List Q2) :
    {x : Q2 | x ∈ hullRing l} = {x : Q2 | x ∈ extremeList l} := by
  ext x
  simp [mem_hullRing]

theorem hullRing_absorb (l m : List Q2) :
    hullRing (hullRing l ++ m) = hullRing (l ++ m) := by
  apply hullRing_congr
  apply extremeList_congr
  rw [mem_list_append_set, mem_list_append_set, hullRing_set]
  calc convexHull ℚ ({x : Q2 | x ∈ extremeList l} ∪ {x : Q2 | x ∈ m})
      = convexHull ℚ (convexHull ℚ {x : Q2 | x ∈ extremeList l} ∪ {x : Q2 | x ∈ m}) :=
        (convexHull_convexHull_union_left _ _).symm
    _ = convexHull ℚ (convexHull ℚ {x : Q2 | x ∈ l} ∪ {x : Q2 | x ∈ m}) := by
        rw [hull_extremeList]
    _ = convexHull ℚ ({x : Q2 | x ∈ l} ∪ {x : Q2 | x ∈ m}) :=
        convexHull_convexHull_union_left _ _

theorem mergeGroup_go (geoms : List GeomValue) :
    ∀ acc : List Q2, (∀ g ∈ geoms, g ≠ GeomValue.polygon []) →
      geoms.foldlM
          (fun acc g =>
            match g with
            | GeomValue.polygon rings =>
                match rings with
                | [] => none
                | r :: _ => some (hullRing (acc ++ r))
            | GeomValue.other => some acc)
          (hullRing acc)
        = some (hullRing (acc ++ allExteriorCoords geoms)) := by
  induction geoms with
  | nil =>
      intro acc _
      rw [List.foldlM_nil]
      rw [show allExteriorCoords [] = [] from rfl, List.append_nil]
      rfl
  | cons g gs ih =>
      intro acc hne
      rw [List.foldlM_cons]
      cases g with
      | polygon rings =>
          cases rings with
          | nil => exact absurd rfl (hne _ (List.mem_cons_self _ _))
          | cons r rest =>
              show (gs.foldlM _ (hullRing (hullRing acc ++ r)) : Option (List Q2)) = _
              rw [hullRing_absorb acc r]
              rw [ih (acc ++ r) fun g hg => hne g (List.mem_cons_of_mem _ hg)]
              rw [show allExteriorCoords (GeomValue.polygon (r :: rest) :: gs)
                  = r ++ allExteriorCoords gs from rfl]
              rw [List.append_assoc]
      | other =>
          show (gs.foldlM _ (hullRing acc) : Option (List Q2)) = _
          rw [ih acc fun g hg => hne g (List.mem_cons_of_mem _ hg)]
          rw [show allExteriorCoords (GeomValue.other :: gs)
              = allExteriorCoords gs from rfl]

theorem mergeGroup_hull (geoms : List GeomValue)
    (h : ∀ g ∈ geoms, g ≠ GeomValue.polygon []) :
    mergeGroup geoms = some (hullRing (allExteriorCoords geoms)) := by
  have hq := mergeGroup_go geoms [] h
  rw [List.nil_append] at hq
  exact hq



/-- C8: the folder-merge fold of `merge_group` — repeatedly combining the
accumulated hull's exterior ring with the next polygon's exterior ring and
retaking the convex hull — produces the same closed ring as one convex hull
of the union of all the polygons' exterior vertices taken at once (provided
no polygon is ring-less, which would panic); hence in folder mode the merge
emits exactly one output feature per folder, whose ring is the convex hull
of the union of the folder's exterior vertices. -/
theorem fold_hull_eq_union_hull (geoms : List GeomValue) (features out : List Feature)
    (hg : ∀ g ∈ geoms, g ≠ GeomValue.polygon [])
    (hv : ∀ f ∈ features, validFeature f)
    (hng : ∀ f ∈ features, f.geometry ≠ some (GeomValue.polygon []))
    (hm : mergeGeometries false features = some out) :
    mergeGroup geoms = some (hullRing (allExteriorCoords geoms))
      ∧ out.length = (foldersOf features).length
      ∧ ∀ feat ∈ out, ∃ F ∈ foldersOf features,
          feat.geometry = some (GeomValue.polygon
            [hullRing (allExteriorCoords (folderGeoms features F))]) := by
  obtain ⟨accs, hacc, hlen, hfeat⟩ := mergeGeometries_false_spec features out hm
  have haccs : accs = buildAccs features := by
    have hq := groupFeatures_eq_buildAccs features hv
    rw [hacc] at hq
    exact Option.some.inj hq
  subst haccs
  obtain ⟨hfst, hfind⟩ := buildAccs_spec features hv
  have hnodup : ((buildAccs features).map Prod.fst).Nodup := by
    rw [hfst]
    exact foldersOf_nodup features
  refine ⟨mergeGroup_hull geoms hg, ?_, ?_⟩
  · rw [hlen, ← hfst, List.length_map]
  · intro feat hf
    obtain ⟨e, he, ring, hr, hfeq⟩ := hfeat feat hf
    have hF : e.1 ∈ foldersOf features := by
      rw [← hfst]
      exact List.mem_map_of_mem Prod.fst he
    have hgeoms : e.2.geoms = folderGeoms features e.1 :=
      (hfind e.1 e.2 (findAcc_of_mem (buildAccs features) hnodup e he)).1
    have hgne : ∀ g ∈ folderGeoms features e.1, g ≠ GeomValue.polygon [] := by
      intro g hgm hgeq
      obtain ⟨f, hfmem, hfg⟩ := List.mem_filterMap.mp hgm
      subst hgeq
      exact hng f (List.mem_of_mem_filter hfmem) hfg
    have hq := mergeGroup_hull e.2.geoms (by rw [hgeoms]; exact hgne)
    rw [hgeoms] at hq hr
    rw [hr] at hq
    have hring : ring = hullRing (allExteriorCoords (folderGeoms features e.1)) :=
      Option.some.inj hq
    refine ⟨e.1, hF, ?_⟩
    rw [hfeq, hring]
    rfl

/-- C8 (witness): two triangle polygons fold to the hull of all their
vertices at once, and a two-feature folder emits exactly one feature whose
ring is the hull of the folder's vertex union. -/
theorem fold_hull_eq_union_hull_witness :
    mergeGroup [GeomValue.polygon [[((0 : ℚ), (0 : ℚ)), (2, 0), (0, 2)]],
        GeomValue.polygon [[((2 : ℚ), (2 : ℚ))]]]
      = some (hullRing (allExteriorCoords
          [GeomValue.polygon [[((0 : ℚ), (0 : ℚ)), (2, 0), (0, 2)]],
            GeomValue.polygon [[((2 : ℚ), (2 : ℚ))]]]))
      ∧ [(⟨some (GeomValue.polygon
            [[((0 : ℚ), (0 : ℚ)), (0, 4), (4, 0), (4, 4), (0, 0)]]),
          some [("SourceFileDir", JVal.jstr "d"),
            ("number_of_points", JVal.ju64 5)]⟩ : Feature)].length
        = (foldersOf
            [⟨some (GeomValue.polygon [[((0 : ℚ), (0 : ℚ)), (4, 0), (0, 4)]]),
              some [("SourceFileDir", JVal.jstr "d"),
                ("number_of_points", JVal.ju64 3)]⟩,
              ⟨some (GeomValue.polygon [[((4 : ℚ), (4 : ℚ)), (1, 1)]]),
                some [("SourceFileDir", JVal.jstr "d"),
                  ("number_of_points", JVal.ju64 2)]⟩]).length
      ∧ ∀ feat ∈ [(⟨some (GeomValue.polygon
            [[((0 : ℚ), (0 : ℚ)), (0, 4), (4, 0), (4, 4), (0, 0)]]),
          some [("SourceFileDir", JVal.jstr "d"),
            ("number_of_points", JVal.ju64 5)]⟩ : Feature)],
          ∃ F ∈ foldersOf
            [⟨some (GeomValue.polygon [[((0 : ℚ), (0 : ℚ)), (4, 0), (0, 4)]]),
              some [("SourceFileDir", JVal.jstr "d"),
                ("number_of_points", JVal.ju64 3)]⟩,
              ⟨some (GeomValue.polygon [[((4 : ℚ), (4 : ℚ)), (1, 1)]]),
                some [("SourceFileDir", JVal.jstr "d"),
                  ("number_of_points", JVal.ju64 2)]⟩],
            feat.geometry = some (GeomValue.polygon
              [hullRing (allExteriorCoords (folderGeoms
                [⟨some (GeomValue.polygon [[((0 : ℚ), (0 : ℚ)), (4, 0), (0, 4)]]),
                  some [("SourceFileDir", JVal.jstr "d"),
                    ("number_of_points", JVal.ju64 3)]⟩,
                  ⟨some (GeomValue.polygon [[((4 : ℚ), (4 : ℚ)), (1, 1)]]),
                    some [("SourceFileDir", JVal.jstr "d"),
                      ("number_of_points", JVal.ju64 2)]⟩] F))]) :=
  fold_hull_eq_union_hull
    [GeomValue.polygon [[((0 : ℚ), (0 : ℚ)), (2, 0), (0, 2)]],
      GeomValue.polygon [[((2 : ℚ), (2 : ℚ))]]]
    [⟨some (GeomValue.polygon [[((0 : ℚ), (0 : ℚ)), (4, 0), (0, 4)]]),
      some [("SourceFileDir", JVal.jstr "d"), ("number_of_points", JVal.ju64 3)]⟩,
      ⟨some (GeomValue.polygon [[((4 : ℚ), (4 : ℚ)), (1, 1)]]),
        some [("SourceFileDir", JVal.jstr "d"), ("number_of_points", JVal.ju64 2)]⟩]
    [⟨some (GeomValue.polygon
        [[((0 : ℚ), (0 : ℚ)), (0, 4), (4, 0), (4, 4), (0, 0)]]),
      some [("SourceFileDir", JVal.jstr "d"), ("number_of_points", JVal.ju64 5)]⟩]
    (by decide) (by decide) (by decide) (by with_unfolding_all decide)

end LasPoly
